import Mathlib

/-!
The collapsibleTree widget: the widget state machine of `inst/htmlwidgets/collapsibleTree.js`

The widget keeps a d3 hierarchy of node objects and mutates it on every click.
The development below embeds

* the host data and the node objects that `d3.hierarchy` builds from it,
* `update` (the data-join key function and the selection record `newnest`),
* `click`, `collapse`, `renderValue`, `resize` and `separationFun`,

and proves the properties of the specification against these definitions.

Conventions of the embedding.

* A node object is addressed by the list of child indices that leads to it from
  the root (`[]` is the root, `[0, 1]` the second child of the first child).
  `d.parent` is the address with the last index removed.
* `d3.hierarchy` creates one array of child objects per internal node.  The
  source never changes such an array, it only copies the reference between the
  fields `children` and `_children` (`d._children = d.children`,
  `d.children = d._children`) or overwrites a field with `null`.  A field is
  therefore `undefined`, `null` or a reference to that one array (`Slot`), and
  the members of the array are stored once, as the subtrees of the node.
* Positions (`x`, `y`, `x0`, `y0`), transitions, tooltips and zooming do not
  influence any of the modelled fields and are left out.
* JavaScript numbers that reach `options.linkLength` are modelled by `Num`
  (a rational, an infinity or NaN); rounding is not modelled.
* A datum carries `name`, `SizeOfNode` and a list of its further own properties
  with their values; `options.collapsed` may name any property, and `collapse`
  tests its truthiness.
-/

namespace CollapsibleTree

/-! ## Trees and addresses -/

/-- Finitely branching tree with a label at every node. -/
inductive Rose (α : Type) where
  | node (obj : α) (kids : List (Rose α)) : Rose α

/-- Address of a node: the child indices on the way down from the root. -/
abbrev Addr := List Nat

namespace Rose

/-- Label of the top node. -/
def obj {α : Type} : Rose α → α
  | node o _ => o

/-- Subtrees of the top node. -/
def kids {α : Type} : Rose α → List (Rose α)
  | node _ ks => ks

/-- Subtree at an address, if the address leads to a node. -/
def getAt {α : Type} : Addr → Rose α → Option (Rose α)
  | [], t => some t
  | i :: p, node _ ks => ks[i]?.bind (getAt p)

/-- Label at an address, if the address leads to a node. -/
def objAt {α : Type} (t : Rose α) (p : Addr) : Option α :=
  (getAt p t).map obj

/-- Replace the label at an address by its image under `g`; nothing happens when
the address leads nowhere. -/
def modifyAt {α : Type} (g : α → α) : Addr → Rose α → Rose α
  | [], node o ks => node (g o) ks
  | i :: p, node o ks => node o (ks.modify (modifyAt g p) i)

mutual
/-- Apply `f` to every label. -/
def map {α β : Type} (f : α → β) : Rose α → Rose β
  | node o ks => node (f o) (mapList f ks)
/-- Apply `f` to every label of a list of trees. -/
def mapList {α β : Type} (f : α → β) : List (Rose α) → List (Rose β)
  | [] => []
  | t :: ts => map f t :: mapList f ts
end

mutual
/-- Number of edges on the longest downward path. -/
def height {α : Type} : Rose α → Nat
  | node _ ks => heightList ks
/-- One more than the largest height in the list, zero for the empty list. -/
def heightList {α : Type} : List (Rose α) → Nat
  | [] => 0
  | t :: ts => max (height t + 1) (heightList ts)
end

/-- Addresses `i :: q`, `(i + 1) :: q`, ... of the members of a list of subtrees,
where `f` lists the addresses `q` inside one member. -/
def kidsLevel {α : Type} (f : Rose α → List Addr) : Nat → List (Rose α) → List Addr
  | _, [] => []
  | i, c :: cs => (f c).map (List.cons i) ++ kidsLevel f (i + 1) cs

/-- Addresses of the nodes `k` levels below the top that are reached through
nodes satisfying `op` only, from left to right. -/
def levelBy {α : Type} (op : α → Bool) : Nat → Rose α → List Addr
  | 0, _ => [[]]
  | k + 1, node o ks => if op o then kidsLevel (levelBy op k) 0 ks else []

/-- Breadth-first list of the nodes that are reached through nodes satisfying
`op` only: all nodes of lesser depth first, and within a depth from left to
right. -/
def bfsBy {α : Type} (op : α → Bool) (t : Rose α) : List Addr :=
  (List.range (t.height + 1)).flatMap (fun k => levelBy op k t)

/-- Whether an address leads to a node through nodes satisfying `op` only. -/
def visibleBy {α : Type} (op : α → Bool) : Addr → Rose α → Bool
  | [], _ => true
  | i :: p, node o ks =>
    op o && (match ks[i]? with
      | some c => visibleBy op p c
      | none => false)

/-- Addresses of all nodes of a tree, in breadth-first order. -/
def addrs {α : Type} (t : Rose α) : List Addr :=
  bfsBy (fun _ => true) t

end Rose

/-! ## Host data and node objects -/

/-- A JavaScript number as far as the widget's tests need it. -/
inductive Num where
  | fin (q : ℚ)
  | posInf
  | negInf
  | nan
  deriving DecidableEq, Repr

/-- Value of a property of a datum, as far as its truthiness is concerned;
`null` also stands for a property that is present with value `undefined`, and
`object` for arrays, objects and functions. -/
inductive JsVal where
  | bool (b : Bool)
  | num (x : Num)
  | str (s : String)
  | null
  | object
  deriving DecidableEq, Repr

/-- One entry of the nested host data, without its `children`: the required
`name` and `SizeOfNode`, and in `others` every further own property of the
entry (`WeightOfNode`, `tooltip`, the field that `options.collapsed` may name,
...) with its value. -/
structure Datum where
  name : String
  SizeOfNode : ℚ
  others : List (String × JsVal)
  deriving DecidableEq, Repr

/-- Nested host data `x.data`: an entry with its `children`. -/
abbrev Data := Rose Datum

/-- Value of the field `children` or `_children` of a node object. -/
inductive Slot where
  | undefined
  | null
  | array
  deriving DecidableEq, Repr

/-- JavaScript truthiness of a slot: an array is truthy, `undefined` and `null`
are not. -/
def Slot.truthy : Slot → Bool
  | .array => true
  | _ => false

/-- Fields of a d3 node object that the widget reads or writes. -/
structure NodeObj where
  data : Datum
  depth : Nat
  children : Slot
  _children : Slot
  _isSelected : Option Bool
  id : Option Nat
  root_id : Option Nat
  deriving DecidableEq, Repr

/-- The hierarchy of node objects held in the variable `root`. -/
abbrev Tree := Rose NodeObj

/-- The node object that `d3.hierarchy` creates for a datum at the given depth:
`children` is set only where the datum has a non-empty list of children, and
none of the widget's own fields exists yet. -/
def fresh (depth : Nat) (d : Datum) (cs : List Data) : NodeObj :=
  { data := d, depth := depth,
    children := if cs.isEmpty then Slot.undefined else Slot.array,
    _children := Slot.undefined, _isSelected := none, id := none, root_id := none }

mutual
/-- Model of `d3.hierarchy(x.data, d => d.children)`: one node object per datum,
with `depth` counted from the root. -/
def hierarchy (depth : Nat) : Data → Tree
  | .node d cs => .node (fresh depth d cs) (hierarchyList (depth + 1) cs)
/-- The node objects of a list of children. -/
def hierarchyList (depth : Nat) : List Data → List Tree
  | [] => []
  | c :: cs => hierarchy depth c :: hierarchyList depth cs
end

/-- Model of `node.descendants()`: the nodes reached through truthy `children`
fields, in breadth-first order. -/
def descendants (t : Tree) : List Addr :=
  t.bfsBy (fun o => o.children.truthy)

/-- Address of `d.parent`; the root has none. -/
def parentAddr (p : Addr) : Option Addr :=
  if p = [] then none else some p.dropLast

/-! ## Options, numbers and the widget state -/

namespace Num

/-- Truthiness: zero and NaN are falsy. -/
def truthy : Num → Bool
  | fin q => decide (q ≠ 0)
  | posInf => true
  | negInf => true
  | nan => false

/-- Quotient `a / n` of a finite number by an array length. -/
def quot (a : ℚ) (n : Nat) : Num :=
  if n = 0 then
    if a = 0 then nan else if 0 < a then posInf else negInf
  else fin (a / n)

/-- Product `2 * x`. -/
def twice : Num → Num
  | fin q => fin (2 * q)
  | x => x

/-- Comparison `x < c` with a finite number `c`. -/
def ltFin : Num → ℚ → Bool
  | fin q, c => decide (q < c)
  | posInf, _ => false
  | negInf, _ => true
  | nan, _ => false

/-- The larger of a finite number `c` and `x`, as `Math.max(c, x)` computes it. -/
def maxFin (c : ℚ) : Num → Num
  | fin q => fin (max c q)
  | posInf => posInf
  | negInf => fin c
  | nan => nan

end Num

/-- The option `collapsed`: a boolean or the name of a per-node boolean field. -/
inductive Collapsed where
  | bool (b : Bool)
  | field (name : String)
  deriving DecidableEq

/-- Truthiness of `options.collapsed`. -/
def Collapsed.truthy : Collapsed → Bool
  | .bool b => b
  | .field s => decide (s ≠ "")

/-- The property key that `options.collapsed in d.data` looks up. -/
def Collapsed.key : Collapsed → String
  | .bool true => "true"
  | .bool false => "false"
  | .field s => s

/-- Insets of the drawing canvas. -/
structure Margin where
  top : ℚ
  right : ℚ
  bottom : ℚ
  left : ℚ

/-- Recognised options as the host passes them in `x.options`. -/
structure HostOptions where
  margin : Margin
  linkLength : Option Num
  collapsed : Collapsed
  hierarchy : List String
  input : Option String

/-- The variable `options`: the host options plus the flag `linkResponsive`
that `renderValue` may add. -/
structure Options where
  margin : Margin
  linkLength : Option Num
  linkResponsive : Bool
  collapsed : Collapsed
  hierarchy : List String
  input : Option String

/-- The assignment `options = x.options`; `linkResponsive` is not a host option
and starts out undefined. -/
def HostOptions.toOptions (o : HostOptions) : Options :=
  { margin := o.margin, linkLength := o.linkLength, linkResponsive := false,
    collapsed := o.collapsed, hierarchy := o.hierarchy, input := o.input }

/-- Argument of `renderValue`. -/
structure Input where
  data : Data
  options : HostOptions

/-- One entry of the selection record `newnest`. -/
structure Record where
  id : Option Nat
  parent : Option String
  level : Option String
  value : String
  deriving DecidableEq, Repr

/-- Variables of one widget instance: the arguments `width` and `height` of
`factory` and its local variables `i`, `root`, `options` and `newnest`. -/
structure Widget where
  width : ℚ
  height : ℚ
  i : Nat
  root : Tree
  options : Options
  newnest : List Record

/-! ## `update` -/

/-- Truthiness of `d.id`: a number other than zero. -/
def idTruthy : Option Nat → Bool
  | some k => decide (k ≠ 0)
  | none => false

/-- The key function of the data join, called on the node at address `p`
(lines 52-61).  It first sets `d.root_id` and then returns `d.id`, assigning
`++i` when the node has no id yet.  The result is the returned key and the
widget after the two assignments. -/
def key (p : Addr) (w : Widget) : Option Nat × Widget :=
  match w.root.objAt p with
  | none => (none, w)
  | some d =>
    let rid : Option Nat :=
      if d.depth > 1 then
        (((parentAddr p).bind w.root.objAt).bind NodeObj.root_id)
      else d.id
    if idTruthy d.id then
      (d.id, { w with root := w.root.modifyAt (fun o => { o with root_id := rid }) p })
    else
      (some (w.i + 1),
        { w with
          i := w.i + 1
          root := w.root.modifyAt (fun o => { o with root_id := rid, id := some (w.i + 1) }) p })

/-- Run the key function over a list of nodes, in order. -/
def keyAll (ps : List Addr) (w : Widget) : Widget :=
  ps.foldl (fun v p => (key p v).2) w

/-- The object that `newnest` holds for the node at address `p` (lines 228-233). -/
def record (w : Widget) (p : Addr) (nd : NodeObj) : Record :=
  { id := nd.root_id
    parent := ((parentAddr p).bind w.root.objAt).map (fun o => o.data.name)
    level := w.options.hierarchy[nd.depth - 1]?
    value := nd.data.name }

/-- The filter of line 227: `nodes.depth > 0 && nodes._isSelected === true`. -/
def isPicked (nd : NodeObj) : Bool :=
  decide (nd.depth > 0) && decide (nd._isSelected = some true)

/-- Model of `update(source)` (lines 36-234) as far as it touches `i`, the node
objects and `newnest`.  `old` lists the nodes bound to the `g.node` elements
that are in the document when the join runs: `selection.data(nodes, key)`
evaluates the key function on those first and on `nodes` afterwards. -/
def update (old : List Addr) (w : Widget) : Widget :=
  let nodes := descendants w.root
  let w1 := keyAll nodes (keyAll old w)
  { w1 with
    newnest :=
      nodes.filterMap (fun p =>
        match w1.root.objAt p with
        | some nd => if isPicked nd then some (record w1 p nd) else none
        | none => none) }

/-! ## `click` -/

/-- The two toggles of `click(d)` (lines 240-253) on the clicked node object. -/
def clickObj (d : NodeObj) : NodeObj :=
  let d1 : NodeObj :=
    if d.children.truthy then { d with _children := d.children, children := Slot.null }
    else { d with children := d._children, _children := Slot.null }
  if d1._isSelected = some false ∨ d1._isSelected = none then
    { d1 with _isSelected := some true }
  else { d1 with _isSelected := some false }

/-- Model of `click(d)` for the node at address `p`: toggle, then `update(d)`. -/
def click (old : List Addr) (p : Addr) (w : Widget) : Widget :=
  update old { w with root := w.root.modifyAt clickObj p }

/-- Truthiness of `options.input`. -/
def inputTruthy : Option String → Bool
  | some s => decide (s ≠ "")
  | none => false

/-- The value that `click` hands to `Shiny.setInputValue` (line 301), before
serialisation; nothing is sent without `options.input`. -/
def delivered (old : List Addr) (p : Addr) (w : Widget) : Option (List Record) :=
  if inputTruthy w.options.input then some (click old p w).newnest else none

/-! ## `renderValue` and `resize` -/

/-- JavaScript truthiness of a property value. -/
def JsVal.truthy : JsVal → Bool
  | .bool b => b
  | .num x => x.truthy
  | .str s => decide (s ≠ "")
  | .null => false
  | .object => true

/-- The value `d.data[key]` when `key in d.data` holds through an own property.
`collapse` consults the datum only for a node whose `children` is truthy, and
`d3.hierarchy` gives a node `children` only when the datum's `children` is a
non-empty array, so the property `children` is an array here.  Properties
inherited from `Object.prototype` are functions and objects, hence truthy, and
have the same effect on `collapse` as an absent property. -/
def Datum.prop (d : Datum) (key : String) : Option JsVal :=
  if key = "name" then some (JsVal.str d.name)
  else if key = "SizeOfNode" then some (JsVal.num (Num.fin d.SizeOfNode))
  else if key = "children" then some JsVal.object
  else d.others.lookup key

/-- The test `options.collapsed in d.data && !d.data[options.collapsed]` of
line 370: the property is present and its value is falsy. -/
def staysOpen (c : Collapsed) (d : Datum) : Bool :=
  match d.prop c.key with
  | some v => !v.truthy
  | none => false

mutual
/-- The helper `collapse(d)` of `renderValue` (lines 368-377). -/
def collapse (c : Collapsed) : Tree → Tree
  | .node d ks =>
    if d.children.truthy && staysOpen c d.data then
      .node d (collapseList c ks)
    else if d.children.truthy then
      .node { d with _children := d.children, children := Slot.null } (collapseList c ks)
    else .node d ks
/-- The loop `forEach(collapse)` over an array of nodes. -/
def collapseList (c : Collapsed) : List Tree → List Tree
  | [] => []
  | t :: ts => collapse c t :: collapseList c ts
end

/-- The link length of lines 357-360 and 392-395:
`2 * (widthMargin / options.hierarchy.length)`, and 175 when that is smaller. -/
def responsiveLength (widthMargin : ℚ) (levels : Nat) : Num :=
  let l := (Num.quot widthMargin levels).twice
  if l.ltFin 175 then Num.fin 175 else l

/-- Truthiness of `options.linkLength`. -/
def lengthTruthy : Option Num → Bool
  | some x => x.truthy
  | none => false

/-- Lines 355-361: compute a link length unless one was specified. -/
def defaultLength (width : ℚ) (o : Options) : Options :=
  if lengthTruthy o.linkLength then o
  else
    { o with
      linkResponsive := true
      linkLength := some (responsiveLength (width - o.margin.left - o.margin.right) o.hierarchy.length) }

/-- Outcome of `renderValue`: the widget it leaves behind, and whether it ended
with the TypeError of `root.children.forEach` on a root without children. -/
structure Rendered where
  widget : Widget
  threw : Bool

/-- Model of `renderValue(x)` (lines 331-378).  The first `update` runs on the
fresh hierarchy, none of whose nodes is bound to an element yet; `old` lists the
nodes bound to elements when the second `update` runs. -/
def renderValue (old : List Addr) (x : Input) (w : Widget) : Rendered :=
  let root : Tree := (hierarchy 0 x.data).modifyAt (fun o => { o with _isSelected := some true }) []
  let w1 := update [] { w with root := root, options := x.options.toOptions }
  let w2 := { w1 with options := defaultLength w.width w1.options }
  if w2.options.collapsed.truthy then
    match w2.root with
    | .node r ks =>
      if r.children.truthy then
        { widget := update old { w2 with root := .node r (collapseList w2.options.collapsed ks) }
          threw := false }
      else { widget := w2, threw := true }
  else { widget := update old w2, threw := false }

/-- Model of `resize(width, height)` (lines 380-403). -/
def resize (old : List Addr) (width _height : ℚ) (w : Widget) : Widget :=
  let widthMargin := width - w.options.margin.left - w.options.margin.right
  let o : Options :=
    if w.options.linkResponsive then
      { w.options with linkLength := some (responsiveLength widthMargin w.options.hierarchy.length) }
    else w.options
  update old { w with options := o }

/-- Model of the closure state right after `factory(el, width, height)`: the
counter at zero, an empty object for `root` and for `options`. -/
def factory (width height : ℚ) : Widget :=
  { width := width, height := height, i := 0
    root := .node
      { data := { name := "", SizeOfNode := 0, others := [] }, depth := 0,
        children := Slot.undefined, _children := Slot.undefined,
        _isSelected := none, id := none, root_id := none } []
    options :=
      { margin := { top := 0, right := 0, bottom := 0, left := 0 }, linkLength := none,
        linkResponsive := false, collapsed := Collapsed.bool false, hierarchy := [], input := none }
    newnest := [] }

/-- What can happen to the widget after `renderValue`: a click on a node or a
resize, each with the nodes bound to elements at that moment. -/
inductive Event where
  | click (old : List Addr) (p : Addr)
  | resize (old : List Addr) (width height : ℚ)

/-- Effect of one event. -/
def step (w : Widget) : Event → Widget
  | .click old p => click old p w
  | .resize old width height => resize old width height w

/-- Effect of a sequence of events, first event first. -/
def run (w : Widget) (es : List Event) : Widget :=
  es.foldl step w

/-- Nodes of the whole hierarchy, visible or not, whose `_isSelected` is `true`. -/
def selectedAddrs (t : Tree) : List Addr :=
  t.addrs.filter (fun p => decide ((t.objAt p).bind NodeObj._isSelected = some true))

/-! ## `separationFun` -/

/-- Model of `separationFun(a, b)` (lines 412-421).  A node is given by its
address and its object; `sqrt` stands for `Math.sqrt`. -/
def separationFun (sqrt : ℚ → ℚ) (a b : Addr × NodeObj) : ℚ :=
  let height := sqrt a.2.data.SizeOfNode + sqrt b.2.data.SizeOfNode
  let distance := height / 25
  if parentAddr a.1 = parentAddr b.1 then distance else 1

/-! ## Example -/

/-- Leaf datum. -/
def leaf (name : String) : Data := .node { name := name, SizeOfNode := 1, others := [] } []

/-- The tree `root -> {A, B}`, `A -> {A1, A2}`. -/
def sampleData : Data :=
  .node { name := "root", SizeOfNode := 1, others := [] }
    [.node { name := "A", SizeOfNode := 1, others := [] } [leaf "A1", leaf "A2"], leaf "B"]

/-- Host options with two level names. -/
def sampleOptions (c : Collapsed) (l : Option Num) : HostOptions :=
  { margin := { top := 0, right := 0, bottom := 0, left := 0 }, linkLength := l,
    collapsed := c, hierarchy := ["L1", "L2"], input := some "node" }

/-! ## Auxiliary definitions for the proofs -/

/-- What `collapse` does to a single node object. -/
def collapseObj (c : Collapsed) (d : NodeObj) : NodeObj :=
  if d.children.truthy && staysOpen c d.data then d
  else if d.children.truthy then { d with _children := d.children, children := Slot.null }
  else d

/-- Forget the two fields that the key function writes. -/
def strip (o : NodeObj) : NodeObj :=
  { o with id := none, root_id := none }

/-- What the key function does to the node object `d` at address `p`. -/
def keyObj (w : Widget) (p : Addr) (d : NodeObj) : NodeObj :=
  { d with
    root_id :=
      if d.depth > 1 then ((parentAddr p).bind w.root.objAt).bind NodeObj.root_id else d.id
    id := if idTruthy d.id then d.id else some (w.i + 1) }

/-- Effect of one event on the hierarchy when ids are ignored. -/
def stepTree (t : Tree) : Event → Tree
  | .click _ p => t.modifyAt clickObj p
  | .resize _ _ _ => t

/-- The node object at address `p` right after `renderValue`, ids ignored, for
the datum `s` found at `p` in the host data. -/
def initObj (c : Collapsed) (p : Addr) (s : Data) : NodeObj :=
  if p = [] then { fresh 0 s.obj s.kids with _isSelected := some true }
  else if c.truthy then collapseObj c (fresh p.length s.obj s.kids)
  else fresh p.length s.obj s.kids

/-- The hierarchy right after `renderValue`, ids ignored. -/
def initTree (x : Input) : Tree :=
  match x.data with
  | .node d cs =>
    .node { fresh 0 d cs with _isSelected := some true }
      (cs.map (fun c =>
        if x.options.collapsed.truthy then (hierarchy 1 c).map (collapseObj x.options.collapsed)
        else hierarchy 1 c))

/-- The part of a node object that decides visibility and selection:
whether `children` is truthy and whether `_isSelected` is `true`. -/
def view (o : NodeObj) : Bool × Bool :=
  (o.children.truthy, decide (o._isSelected = some true))

/-- A node never holds its child array in both `children` and `_children`. -/
def Exclusive (o : NodeObj) : Prop :=
  ¬ (o.children.truthy = true ∧ o._children.truthy = true)

/-- Expansion and selection agree: an expanded node is selected, and a selected
node does not hold its children in `_children`. -/
def Agree (o : NodeObj) : Prop :=
  (o.children.truthy = true → o._isSelected = some true) ∧
  (o._isSelected = some true → o._children.truthy = false)

/-- The id of the node at an address, if the node exists and has one. -/
def idAt (t : Tree) (q : Addr) : Option Nat :=
  (t.objAt q).bind NodeObj.id

/-- Every node of the hierarchy has a (truthy) id. -/
def AllIds (t : Tree) : Prop :=
  ∀ q o, t.objAt q = some o → idTruthy o.id = true

/-- Assigned ids lie between 1 and the counter `i`, and no two nodes share one. -/
def IdsOk (w : Widget) : Prop :=
  (∀ q k, idAt w.root q = some k → 1 ≤ k ∧ k ≤ w.i) ∧
  (∀ q r k, idAt w.root q = some k → idAt w.root r = some k → q = r)

/-- The field `depth` of every node is the length of its address. -/
def DepthOk (t : Tree) : Prop :=
  ∀ q o, t.objAt q = some o → o.depth = q.length

/-- The nodes in `S` below the root carry the id of their depth-1 ancestor in
`root_id`. -/
def RootOk (S : List Addr) (t : Tree) : Prop :=
  ∀ p, p ∈ S → ∀ o, t.objAt p = some o → 1 ≤ p.length →
    ∃ a, t.objAt (p.take 1) = some a ∧ o.root_id = a.id

/-- Every node of the list that lies deeper than depth 1 has its parent in `S`
or earlier in the list. -/
def Closed : List Addr → List Addr → Prop
  | _, [] => True
  | S, p :: L => (1 < p.length → p.dropLast ∈ S) ∧ Closed (p :: S) L

/-- The entry that `update` adds to `newnest` for the node at `p`, if any. -/
def pick (w : Widget) (p : Addr) : Option Record :=
  match w.root.objAt p with
  | some nd => if isPicked nd then some (record w p nd) else none
  | none => none

/-- The selection record lists the picked visible nodes, in breadth-first order. -/
def NestEq (w : Widget) : Prop :=
  w.newnest = (descendants w.root).filterMap (pick w)

/-- The record `r` describes the node at `p`: the node is selected and lies
below the root, `id` is the id of its depth-1 ancestor, `parent` the name of its
parent, `level` the level name for its depth and `value` its own name. -/
def RecOk (w : Widget) (p : Addr) (r : Record) : Prop :=
  ∃ nd a par, w.root.objAt p = some nd ∧ 0 < nd.depth ∧ nd.depth = p.length ∧
    nd._isSelected = some true ∧
    w.root.objAt (p.take 1) = some a ∧ a.depth = 1 ∧ idTruthy a.id = true ∧ r.id = a.id ∧
    w.root.objAt p.dropLast = some par ∧ r.parent = some par.data.name ∧
    r.level = w.options.hierarchy[nd.depth - 1]? ∧ r.value = nd.data.name

/-- Every entry of the selection record describes its node correctly. -/
def NestOk (w : Widget) : Prop :=
  List.Forall₂ (RecOk w) ((descendants w.root).filter (fun p => (pick w p).isSome)) w.newnest

/-- The id and the depth of a node object. -/
def idDepth (o : NodeObj) : Option Nat × Nat :=
  (o.id, o.depth)

/-- What holds in every state after `renderValue`. -/
def Good (w : Widget) : Prop :=
  AllIds w.root ∧ IdsOk w ∧ DepthOk w.root ∧ NestEq w ∧ NestOk w

/-- Whether `p` lies to the left of `q`, for two addresses of the same length:
at the first index where they differ, `p` has the smaller one. -/
def leftOf : Addr → Addr → Bool
  | i :: p, j :: q => decide (i < j) || (decide (i = j) && leftOf p q)
  | _, _ => false

/-- Breadth-first order of two nodes: `p` is less deep than `q`, or as deep as
`q` and to the left of it. -/
def Earlier (p q : Addr) : Prop :=
  p.length < q.length ∨ (p.length = q.length ∧ leftOf p q = true)

/-- Whether the node at `p` passes the filter of line 227. -/
def pickedAt (t : Tree) (p : Addr) : Bool :=
  match t.objAt p with
  | some nd => isPicked nd
  | none => false

/-- Addresses of all nodes of `sampleData`, in the order the first render
creates their elements. -/
def allNodes : List Addr := [[], [0], [1], [0, 0], [0, 1]]

/-- The widget after `renderValue` on `sampleData` with `collapsed = true`. -/
def collapsedStart : Widget :=
  (renderValue allNodes ⟨sampleData, sampleOptions (Collapsed.bool true) none⟩
    (factory 800 600)).widget

/-- The widget after `renderValue` on `sampleData` without `collapsed`. -/
def expandedStart : Widget :=
  (renderValue allNodes ⟨sampleData, sampleOptions (Collapsed.bool false) none⟩
    (factory 800 600)).widget

/-- Expand `A`, select `A1`, collapse `A` again: three clicks on visible nodes. -/
def hideSelected : List Event :=
  [Event.click [[], [0], [1]] [0], Event.click allNodes [0, 0], Event.click allNodes [0]]

/-- A stand-in for `Math.sqrt` that is exact on the two sizes of the example. -/
def sampleSqrt (q : ℚ) : ℚ :=
  if q = 16 then 4 else if q = 9 then 3 else 0

/-- A node object of the given size. -/
def sized (size : ℚ) : NodeObj :=
  fresh 1 { name := "n", SizeOfNode := size, others := [] } []

/-- The node object of `A` in the sample tree, with the given values of the
fields that clicks change. -/
def nodeA (children _children : Slot) (sel : Option Bool) : NodeObj :=
  { data := { name := "A", SizeOfNode := 1, others := [] }, depth := 1,
    children := children, _children := _children, _isSelected := sel,
    id := some 2, root_id := some 2 }

/-- The sample tree with `SizeOfNode = 0` at `A`. -/
def zeroSizeData : Data :=
  .node { name := "root", SizeOfNode := 1, others := [] }
    [.node { name := "A", SizeOfNode := 0, others := [] } [leaf "A1", leaf "A2"], leaf "B"]

/-- The widget after `renderValue` on `zeroSizeData` with `collapsed = "SizeOfNode"`. -/
def zeroSizeStart : Widget :=
  (renderValue allNodes ⟨zeroSizeData, sampleOptions (Collapsed.field "SizeOfNode") none⟩
    (factory 800 600)).widget

/-- The node object of `A` in `zeroSizeStart`. -/
def zeroSizeA : NodeObj :=
  { data := { name := "A", SizeOfNode := 0, others := [] }, depth := 1,
    children := Slot.array, _children := Slot.undefined, _isSelected := none,
    id := some 2, root_id := some 2 }

/-- One click on the node `A` while the root, `A` and `B` are displayed. -/
def expandA : List Event :=
  [Event.click [[], [0], [1]] [0]]

/-! # Proofs -/

/-! ## Trees: general facts -/

namespace Rose

theorem mapList_eq {α β : Type} (f : α → β) (ks : List (Rose α)) :
    mapList f ks = ks.map (map f) := by
  induction ks with
  | nil => rfl
  | cons c cs ih => simp [mapList, ih]

theorem map_node {α β : Type} (f : α → β) (o : α) (ks : List (Rose α)) :
    map f (node o ks) = node (f o) (ks.map (map f)) := by
  rw [map, mapList_eq]

theorem height_node_le {α : Type} (ks : List (Rose α)) (c : Rose α) (h : c ∈ ks) :
    height c + 1 ≤ heightList ks := by
  induction ks with
  | nil => cases h
  | cons d ds ih =>
    rcases List.mem_cons.1 h with rfl | h
    · simp [heightList]
    · have := ih h
      simp only [heightList]
      omega

mutual
theorem induct {α : Type} {P : Rose α → Prop}
    (h : ∀ o ks, (∀ t, t ∈ ks → P t) → P (node o ks)) : ∀ t, P t
  | node o ks => h o ks (inductList h ks)
theorem inductList {α : Type} {P : Rose α → Prop}
    (h : ∀ o ks, (∀ t, t ∈ ks → P t) → P (node o ks)) : ∀ ks : List (Rose α), ∀ t, t ∈ ks → P t
  | [], _, hm => absurd hm (List.not_mem_nil _)
  | c :: cs, t, hm =>
    (List.mem_cons.1 hm).elim (fun e => e ▸ induct h c) (fun hm => inductList h cs t hm)
end

theorem getAt_map {α β : Type} (f : α → β) (p : Addr) (t : Rose α) :
    getAt p (map f t) = (getAt p t).map (map f) := by
  induction p generalizing t with
  | nil => rfl
  | cons i p ih =>
    cases t with
    | node o ks =>
      rw [map_node]
      simp only [getAt, List.getElem?_map]
      cases ks[i]? with
      | none => rfl
      | some c => simpa using ih c

theorem obj_map {α β : Type} (f : α → β) (t : Rose α) : (map f t).obj = f t.obj := by
  cases t; simp [map, obj]

theorem objAt_map {α β : Type} (f : α → β) (p : Addr) (t : Rose α) :
    objAt (map f t) p = (objAt t p).map f := by
  simp only [objAt, getAt_map]
  cases getAt p t <;> simp [obj_map]

theorem map_map {α β γ : Type} (f : α → β) (g : β → γ) (t : Rose α) :
    map g (map f t) = map (g ∘ f) t := by
  induction t using induct with
  | h o ks ih =>
    simp only [map_node, List.map_map, Function.comp_apply]
    congr 1
    exact List.map_congr_left (fun c hc => by simpa using ih c hc)

theorem map_id {α : Type} (t : Rose α) : map (fun o => o) t = t := by
  induction t using induct with
  | h o ks ih =>
    simp only [map_node]
    congr 1
    conv_rhs => rw [← List.map_id ks]
    exact List.map_congr_left (fun c hc => by simpa using ih c hc)

theorem height_map {α β : Type} (f : α → β) (t : Rose α) : height (map f t) = height t := by
  induction t using induct with
  | h o ks ih =>
    simp only [map_node, height]
    induction ks with
    | nil => rfl
    | cons c cs ihc =>
      simp only [List.map_cons, heightList]
      rw [ih c (List.mem_cons_self _ _), ihc (fun t ht => ih t (List.mem_cons_of_mem _ ht))]

theorem modifyAt_id {α : Type} (p : Addr) (t : Rose α) : modifyAt (fun o => o) p t = t := by
  induction p generalizing t with
  | nil => cases t; rfl
  | cons i p ih =>
    cases t with
    | node o ks =>
      simp only [modifyAt]
      congr 1
      have : modifyAt (fun o : α => o) p = id := funext (fun c => ih c)
      rw [this, List.modify_id]

theorem modifyAt_modifyAt {α : Type} (g h : α → α) (p : Addr) (t : Rose α) :
    modifyAt g p (modifyAt h p t) = modifyAt (g ∘ h) p t := by
  induction p generalizing t with
  | nil => cases t; rfl
  | cons i p ih =>
    cases t with
    | node o ks =>
      simp only [modifyAt, List.modify_modify_eq]
      congr 2
      exact funext (fun c => ih c)

theorem map_modify_list {α β : Type} (F : α → β) (G : α → α) (G2 : β → β)
    (h : ∀ a, F (G a) = G2 (F a)) (i : Nat) (l : List α) :
    (l.modify G i).map F = (l.map F).modify G2 i := by
  induction l generalizing i with
  | nil => cases i <;> rfl
  | cons a l ih =>
    cases i with
    | zero => simp [List.modify_zero_cons, h]
    | succ i => simp [List.modify_succ_cons, ih]

theorem map_modifyAt {α β : Type} (f : α → β) (g : α → α) (g2 : β → β)
    (h : ∀ o, f (g o) = g2 (f o)) (p : Addr) (t : Rose α) :
    map f (modifyAt g p t) = modifyAt g2 p (map f t) := by
  induction p generalizing t with
  | nil => cases t; rw [modifyAt, map_node, map_node, modifyAt, h]
  | cons i p ih =>
    cases t with
    | node o ks =>
      rw [modifyAt, map_node, map_node, modifyAt]
      congr 1
      exact map_modify_list (map f) (modifyAt g p) (modifyAt g2 p) ih i ks

theorem map_modifyAt_same {α β : Type} (f : α → β) (g : α → α)
    (h : ∀ o, f (g o) = f o) (p : Addr) (t : Rose α) :
    map f (modifyAt g p t) = map f t := by
  rw [map_modifyAt f g (fun o => o) h, modifyAt_id]

theorem objAt_nil {α : Type} (t : Rose α) : objAt t [] = some t.obj := rfl

theorem objAt_cons {α : Type} (i : Nat) (p : Addr) (o : α) (ks : List (Rose α)) :
    objAt (node o ks) (i :: p) = ks[i]?.bind (fun c => objAt c p) := by
  simp only [objAt, getAt]
  cases ks[i]? <;> rfl

theorem objAt_modifyAt {α : Type} (g : α → α) (p q : Addr) (t : Rose α) :
    objAt (modifyAt g p t) q = if q = p then (objAt t q).map g else objAt t q := by
  induction p generalizing q t with
  | nil =>
    cases t with
    | node o ks =>
      cases q with
      | nil => simp [modifyAt, objAt, getAt, obj]
      | cons j q => simp [modifyAt, objAt_cons]
  | cons i p ih =>
    cases t with
    | node o ks =>
      cases q with
      | nil => simp [modifyAt, objAt, getAt, obj]
      | cons j q =>
        simp only [modifyAt, objAt_cons, List.getElem?_modify, List.cons.injEq]
        by_cases hij : i = j
        · subst hij
          cases hk : ks[i]? with
          | none => simp
          | some c => simp [ih]
        · have hji : ¬ j = i := fun e => hij e.symm
          simp [hij, hji]

end Rose
/-! ## Breadth-first lists -/

namespace Rose

theorem mem_kidsLevel {α : Type} (f : Rose α → List Addr) (i : Nat) (cs : List (Rose α))
    (p : Addr) :
    p ∈ kidsLevel f i cs ↔ ∃ j c q, cs[j]? = some c ∧ q ∈ f c ∧ p = (i + j) :: q := by
  induction cs generalizing i with
  | nil => simp [kidsLevel]
  | cons d ds ih =>
    simp only [kidsLevel, List.mem_append, List.mem_map, ih]
    constructor
    · rintro (⟨q, hq, rfl⟩ | ⟨j, c, q, hj, hq, rfl⟩)
      · exact ⟨0, d, q, by simp, hq, by simp⟩
      · exact ⟨j + 1, c, q, by simpa using hj, hq, by simp; omega⟩
    · rintro ⟨j, c, q, hj, hq, rfl⟩
      cases j with
      | zero =>
        simp only [List.getElem?_cons_zero, Option.some.injEq] at hj
        subst hj
        exact Or.inl ⟨q, hq, by simp⟩
      | succ j =>
        exact Or.inr ⟨j, c, q, by simpa using hj, hq, by simp; omega⟩

theorem nodup_kidsLevel {α : Type} (f : Rose α → List Addr) (i : Nat) (cs : List (Rose α))
    (h : ∀ c, c ∈ cs → (f c).Nodup) : (kidsLevel f i cs).Nodup := by
  induction cs generalizing i with
  | nil => simp [kidsLevel]
  | cons d ds ih =>
    simp only [kidsLevel]
    refine List.Nodup.append ?_ (ih (i + 1) (fun c hc => h c (List.mem_cons_of_mem _ hc))) ?_
    · exact (h d (List.mem_cons_self _ _)).map (fun a b e => by simpa using e)
    · intro p hp hq
      rcases List.mem_map.1 hp with ⟨q, _, rfl⟩
      rcases (mem_kidsLevel f (i + 1) ds _).1 hq with ⟨j, c, q2, _, _, e⟩
      simp only [List.cons.injEq] at e
      omega

theorem kidsLevel_congr {α : Type} (f g : Rose α → List Addr) (i : Nat) (cs : List (Rose α))
    (h : ∀ c, c ∈ cs → f c = g c) : kidsLevel f i cs = kidsLevel g i cs := by
  induction cs generalizing i with
  | nil => rfl
  | cons d ds ih =>
    simp only [kidsLevel]
    rw [h d (List.mem_cons_self _ _), ih (i + 1) (fun c hc => h c (List.mem_cons_of_mem _ hc))]

theorem kidsLevel_map {α β : Type} (f : Rose β → List Addr) (m : Rose α → Rose β) (i : Nat)
    (cs : List (Rose α)) : kidsLevel f i (cs.map m) = kidsLevel (fun c => f (m c)) i cs := by
  induction cs generalizing i with
  | nil => rfl
  | cons d ds ih => simp only [List.map_cons, kidsLevel, ih]

theorem levelBy_map {α β : Type} (op : β → Bool) (f : α → β) (k : Nat) (t : Rose α) :
    levelBy op k (map f t) = levelBy (fun o => op (f o)) k t := by
  induction k generalizing t with
  | zero => cases t; rfl
  | succ k ih =>
    cases t with
    | node o ks =>
      rw [map_node]
      simp only [levelBy]
      rw [kidsLevel_map]
      rw [kidsLevel_congr _ (levelBy (fun o => op (f o)) k) 0 ks (fun c _ => ih c)]

theorem bfsBy_map {α β : Type} (op : β → Bool) (f : α → β) (t : Rose α) :
    bfsBy op (map f t) = bfsBy (fun o => op (f o)) t := by
  simp only [bfsBy, height_map, levelBy_map]

theorem mem_levelBy {α : Type} (op : α → Bool) (k : Nat) (t : Rose α) (p : Addr) :
    p ∈ levelBy op k t ↔ p.length = k ∧ visibleBy op p t = true := by
  induction k generalizing t p with
  | zero =>
    cases t
    cases p <;> simp [levelBy, visibleBy]
  | succ k ih =>
    cases t with
    | node o ks =>
      simp only [levelBy]
      cases p with
      | nil =>
        cases op o
        · simp
        · simp only [if_true, mem_kidsLevel]
          simp
      | cons i p =>
        simp only [visibleBy, List.length_cons, Nat.add_right_cancel_iff, Bool.and_eq_true]
        cases hop : op o
        · simp
        · simp only [if_true, mem_kidsLevel, Nat.zero_add, List.cons.injEq, true_and]
          constructor
          · rintro ⟨j, c, q, hj, hq, rfl, rfl⟩
            rw [hj]
            exact (ih c p).1 hq
          · intro ⟨hl, hv⟩
            cases hk : ks[i]? with
            | none => rw [hk] at hv; cases hv
            | some c =>
              rw [hk] at hv
              exact ⟨i, c, p, hk, (ih c p).2 ⟨hl, hv⟩, rfl, rfl⟩

theorem nodup_levelBy {α : Type} (op : α → Bool) (k : Nat) (t : Rose α) :
    (levelBy op k t).Nodup := by
  induction k generalizing t with
  | zero => cases t; simp [levelBy]
  | succ k ih =>
    cases t with
    | node o ks =>
      simp only [levelBy]
      split
      · exact nodup_kidsLevel _ 0 ks (fun c _ => ih c)
      · exact List.nodup_nil

theorem visibleBy_length_le {α : Type} (op : α → Bool) (p : Addr) (t : Rose α)
    (h : visibleBy op p t = true) : p.length ≤ height t := by
  induction p generalizing t with
  | nil => simp
  | cons i p ih =>
    cases t with
    | node o ks =>
      simp only [visibleBy, Bool.and_eq_true] at h
      cases hk : ks[i]? with
      | none => rw [hk] at h; cases h.2
      | some c =>
        rw [hk] at h
        have h1 := ih c h.2
        have h2 := height_node_le ks c (List.getElem?_mem hk)
        simp only [height, List.length_cons]
        omega

theorem mem_bfsBy {α : Type} (op : α → Bool) (t : Rose α) (p : Addr) :
    p ∈ bfsBy op t ↔ visibleBy op p t = true := by
  simp only [bfsBy, List.mem_flatMap, List.mem_range, mem_levelBy]
  constructor
  · rintro ⟨k, _, _, hv⟩
    exact hv
  · intro hv
    exact ⟨p.length, Nat.lt_succ_of_le (visibleBy_length_le op p t hv), rfl, hv⟩

theorem nodup_flatMap_range (L : Nat → List Addr) (n : Nat)
    (h1 : ∀ k, (L k).Nodup) (h2 : ∀ k p, p ∈ L k → p.length = k) :
    ((List.range n).flatMap L).Nodup := by
  induction n with
  | zero => simp
  | succ n ih =>
    rw [List.range_succ, List.flatMap_append]
    refine List.Nodup.append ih (by simpa using h1 n) ?_
    intro p hp hq
    simp only [List.mem_flatMap, List.mem_range] at hp
    rcases hp with ⟨k, hk, hpk⟩
    simp only [List.flatMap_cons, List.flatMap_nil, List.append_nil] at hq
    have := h2 k p hpk
    have := h2 n p hq
    omega

theorem nodup_bfsBy {α : Type} (op : α → Bool) (t : Rose α) : (bfsBy op t).Nodup :=
  nodup_flatMap_range _ _ (fun k => nodup_levelBy op k t)
    (fun k p hp => ((mem_levelBy op k t p).1 hp).1)

theorem visibleBy_true {α : Type} (p : Addr) (t : Rose α) :
    visibleBy (fun _ => true) p t = (getAt p t).isSome := by
  induction p generalizing t with
  | nil => rfl
  | cons i p ih =>
    cases t with
    | node o ks =>
      simp only [visibleBy, getAt, Bool.true_and]
      cases ks[i]? with
      | none => rfl
      | some c => simpa using ih c

theorem mem_addrs {α : Type} (t : Rose α) (p : Addr) :
    p ∈ addrs t ↔ (getAt p t).isSome = true := by
  rw [addrs, mem_bfsBy, visibleBy_true]

theorem addrs_map {α β : Type} (f : α → β) (t : Rose α) : addrs (map f t) = addrs t := by
  simp only [addrs, bfsBy_map]

theorem visibleBy_getAt {α : Type} (op : α → Bool) (p : Addr) (t : Rose α)
    (h : visibleBy op p t = true) : (getAt p t).isSome = true := by
  induction p generalizing t with
  | nil => rfl
  | cons i p ih =>
    cases t with
    | node o ks =>
      simp only [visibleBy, Bool.and_eq_true] at h
      simp only [getAt]
      cases hk : ks[i]? with
      | none => rw [hk] at h; cases h.2
      | some c =>
        rw [hk] at h
        simpa using ih c h.2

theorem visibleBy_dropLast {α : Type} (op : α → Bool) (p : Addr) (t : Rose α)
    (h : visibleBy op p t = true) : visibleBy op p.dropLast t = true := by
  induction p generalizing t with
  | nil => rfl
  | cons i p ih =>
    cases p with
    | nil => rfl
    | cons j q =>
      cases t with
      | node o ks =>
        simp only [List.dropLast_cons₂]
        rw [visibleBy] at h ⊢
        simp only [Bool.and_eq_true] at h ⊢
        refine ⟨h.1, ?_⟩
        cases hk : ks[i]? with
        | none => rw [hk] at h; cases h.2
        | some c =>
          rw [hk] at h
          exact ih c h.2

end Rose
/-! ## The fresh hierarchy and `collapse` -/

theorem hierarchyList_eq (d : Nat) (cs : List Data) :
    hierarchyList d cs = cs.map (hierarchy d) := by
  induction cs with
  | nil => rfl
  | cons c cs ih => simp [hierarchyList, ih]

theorem hierarchy_node (d : Nat) (o : Datum) (cs : List Data) :
    hierarchy d (.node o cs) = .node (fresh d o cs) (cs.map (hierarchy (d + 1))) := by
  rw [hierarchy, hierarchyList_eq]

theorem getAt_hierarchy (p : Addr) (d : Nat) (t : Data) :
    Rose.getAt p (hierarchy d t) = (Rose.getAt p t).map (hierarchy (d + p.length)) := by
  induction p generalizing d t with
  | nil => rfl
  | cons i p ih =>
    cases t with
    | node o cs =>
      rw [hierarchy_node]
      simp only [Rose.getAt, List.getElem?_map, List.length_cons]
      cases cs[i]? with
      | none => rfl
      | some c =>
        have := ih (d + 1) c
        simpa [Nat.add_assoc, Nat.add_comm 1] using this

theorem objAt_hierarchy (p : Addr) (d : Nat) (t : Data) :
    (hierarchy d t).objAt p =
      (Rose.getAt p t).map (fun s => fresh (d + p.length) s.obj s.kids) := by
  rw [Rose.objAt, getAt_hierarchy]
  cases Rose.getAt p t with
  | none => rfl
  | some s => cases s; simp [hierarchy_node, Rose.obj, Rose.kids]

theorem height_hierarchy (d : Nat) (t : Data) : (hierarchy d t).height = t.height := by
  induction t using Rose.induct generalizing d with
  | h o ks ih =>
    rw [hierarchy_node]
    simp only [Rose.height]
    induction ks with
    | nil => rfl
    | cons c cs ihc =>
      simp only [List.map_cons, Rose.heightList]
      rw [ih c (List.mem_cons_self _ _), ihc (fun t ht => ih t (List.mem_cons_of_mem _ ht))]

theorem levelBy_hierarchy (k d : Nat) (t : Data) :
    Rose.levelBy (fun o : NodeObj => o.children.truthy) k (hierarchy d t)
      = Rose.levelBy (fun _ => true) k t := by
  induction k generalizing d t with
  | zero => cases t; rfl
  | succ k ih =>
    cases t with
    | node o cs =>
      rw [hierarchy_node]
      simp only [Rose.levelBy, if_true]
      cases cs with
      | nil => simp [Rose.kidsLevel]
      | cons c cs =>
        simp only [fresh, List.isEmpty_cons, Bool.false_eq_true, if_false, Slot.truthy, if_true]
        rw [Rose.kidsLevel_map]
        exact Rose.kidsLevel_congr _ _ 0 _ (fun c _ => ih (d + 1) c)

theorem descendants_hierarchy (d : Nat) (t : Data) : descendants (hierarchy d t) = t.addrs := by
  simp only [descendants, Rose.addrs, Rose.bfsBy, height_hierarchy, levelBy_hierarchy]

theorem collapseList_eq (c : Collapsed) (ks : List Tree) :
    collapseList c ks = ks.map (collapse c) := by
  induction ks with
  | nil => rfl
  | cons t ts ih => simp [collapseList, ih]

theorem collapse_hierarchy (c : Collapsed) (d : Nat) (t : Data) :
    collapse c (hierarchy d t) = (hierarchy d t).map (collapseObj c) := by
  induction t using Rose.induct generalizing d with
  | h o ks ih =>
    rw [hierarchy_node, Rose.map_node, collapse, collapseList_eq]
    have hk : (ks.map (hierarchy (d + 1))).map (collapse c)
        = (ks.map (hierarchy (d + 1))).map (Rose.map (collapseObj c)) := by
      simp only [List.map_map]
      exact List.map_congr_left (fun t ht => by simpa using ih t ht (d + 1))
    cases ks with
    | nil => simp [collapseObj, fresh, Slot.truthy]
    | cons k ks =>
      rw [hk]
      by_cases hs : staysOpen c o = true
      · simp [collapseObj, fresh, Slot.truthy, hs]
      · simp [collapseObj, fresh, Slot.truthy, hs]

theorem collapse_strip (c : Collapsed) (t : Tree) :
    (collapse c t).map strip = collapse c (t.map strip) := by
  induction t using Rose.induct with
  | h o ks ih =>
    rw [Rose.map_node, collapse, collapse, collapseList_eq, collapseList_eq]
    have hk : (ks.map (collapse c)).map (Rose.map strip)
        = (ks.map (Rose.map strip)).map (collapse c) := by
      simp only [List.map_map]
      exact List.map_congr_left (fun t ht => by simpa using ih t ht)
    by_cases h1 : o.children.truthy = true
    · by_cases h2 : staysOpen c o.data = true
      · simp [strip, h1, h2, Rose.map_node] at hk ⊢
        exact hk
      · simp [strip, h1, h2, Rose.map_node] at hk ⊢
        exact hk
    · simp [strip, h1, Rose.map_node]

theorem hierarchy_strip (d : Nat) (t : Data) : (hierarchy d t).map strip = hierarchy d t := by
  induction t using Rose.induct generalizing d with
  | h o ks ih =>
    rw [hierarchy_node, Rose.map_node]
    congr 1
    rw [List.map_map]
    exact List.map_congr_left (fun t ht => by simpa using ih t ht (d + 1))
/-! ## The key function and `update`, ids ignored -/

theorem strip_children (a : NodeObj) : (strip a).children = a.children := rfl

theorem key_strip (p : Addr) (w : Widget) :
    (key p w).2.root.map strip = w.root.map strip := by
  unfold key
  cases w.root.objAt p with
  | none => rfl
  | some d =>
    simp only
    split
    · show Rose.map strip (Rose.modifyAt _ p w.root) = _
      apply Rose.map_modifyAt_same
      intro o; rfl
    · show Rose.map strip (Rose.modifyAt _ p w.root) = _
      apply Rose.map_modifyAt_same
      intro o; rfl

theorem key_options (p : Addr) (w : Widget) : (key p w).2.options = w.options := by
  unfold key
  cases w.root.objAt p with
  | none => rfl
  | some d => simp only; split <;> rfl

theorem key_width (p : Addr) (w : Widget) : (key p w).2.width = w.width := by
  unfold key
  cases w.root.objAt p with
  | none => rfl
  | some d => simp only; split <;> rfl

theorem keyAll_strip (ps : List Addr) (w : Widget) :
    (keyAll ps w).root.map strip = w.root.map strip := by
  induction ps generalizing w with
  | nil => rfl
  | cons p ps ih =>
    simp only [keyAll, List.foldl_cons] at ih ⊢
    rw [ih, key_strip]

theorem keyAll_options (ps : List Addr) (w : Widget) : (keyAll ps w).options = w.options := by
  induction ps generalizing w with
  | nil => rfl
  | cons p ps ih =>
    simp only [keyAll, List.foldl_cons] at ih ⊢
    rw [ih, key_options]

theorem keyAll_width (ps : List Addr) (w : Widget) : (keyAll ps w).width = w.width := by
  induction ps generalizing w with
  | nil => rfl
  | cons p ps ih =>
    simp only [keyAll, List.foldl_cons] at ih ⊢
    rw [ih, key_width]

theorem update_root (old : List Addr) (w : Widget) :
    (update old w).root = (keyAll (descendants w.root) (keyAll old w)).root := rfl

theorem update_strip (old : List Addr) (w : Widget) :
    (update old w).root.map strip = w.root.map strip := by
  rw [update_root, keyAll_strip, keyAll_strip]

theorem update_options (old : List Addr) (w : Widget) : (update old w).options = w.options := by
  simp only [update, keyAll_options]

theorem update_width (old : List Addr) (w : Widget) : (update old w).width = w.width := by
  simp only [update, keyAll_width]

theorem descendants_strip (t : Tree) : descendants (t.map strip) = descendants t := by
  simp only [descendants, Rose.bfsBy_map, strip_children]

theorem descendants_congr (t u : Tree) (h : t.map strip = u.map strip) :
    descendants t = descendants u := by
  rw [← descendants_strip t, h, descendants_strip]

theorem descendants_update (old : List Addr) (w : Widget) :
    descendants (update old w).root = descendants w.root :=
  descendants_congr _ _ (update_strip old w)

theorem clickObj_strip (o : NodeObj) : strip (clickObj o) = clickObj (strip o) := by
  unfold clickObj strip
  simp only
  split <;> split <;> rfl

theorem collapseObj_strip (c : Collapsed) (o : NodeObj) :
    strip (collapseObj c o) = collapseObj c (strip o) := by
  unfold collapseObj strip
  simp only
  split
  · rfl
  · split <;> rfl

theorem step_strip (w : Widget) (e : Event) :
    (step w e).root.map strip = stepTree (w.root.map strip) e := by
  cases e with
  | click old p =>
    simp only [step, click, stepTree, update_strip]
    exact Rose.map_modifyAt strip clickObj clickObj clickObj_strip p w.root
  | resize old width height =>
    simp only [step, resize, stepTree, update_strip]

theorem run_strip (w : Widget) (es : List Event) :
    (run w es).root.map strip = es.foldl stepTree (w.root.map strip) := by
  induction es generalizing w with
  | nil => rfl
  | cons e es ih =>
    simp only [run, List.foldl_cons] at ih ⊢
    rw [ih, step_strip]

theorem renderValue_strip (old : List Addr) (x : Input) (w : Widget) :
    (renderValue old x w).widget.root.map strip = (initTree x).map strip := by
  obtain ⟨data, opts⟩ := x
  cases data with
  | node d cs =>
    have hH : ((hierarchy 0 (.node d cs)).modifyAt (fun o => { o with _isSelected := some true }) [])
        = .node { fresh 0 d cs with _isSelected := some true } (cs.map (hierarchy 1)) := by
      rw [hierarchy_node]; rfl
    simp only [renderValue, hH, initTree]
    generalize hU : update [] { w with root := Rose.node { fresh 0 d cs with _isSelected := some true } (cs.map (hierarchy 1)), options := opts.toOptions } = U
    have hs : U.root.map strip = (Rose.node { fresh 0 d cs with _isSelected := some true } (cs.map (hierarchy 1)) : Tree).map strip := by
      rw [← hU, update_strip]
    have ho : U.options.collapsed = opts.collapsed := by
      rw [← hU, update_options]; rfl
    have hc : (defaultLength w.width U.options).collapsed = opts.collapsed := by
      rw [← ho]; unfold defaultLength; split <;> rfl
    simp only [hc]
    cases hr : U.root with
    | node r ks =>
      rw [hr, Rose.map_node, Rose.map_node] at hs
      injection hs with h1 h2
      by_cases hct : opts.collapsed.truthy = true
      · simp only [hct, if_true]
        have hrc : r.children = (fresh 0 d cs).children := by
          have := congrArg NodeObj.children h1
          simpa [strip] using this
        cases cs with
        | nil =>
          have : r.children.truthy = false := by rw [hrc]; rfl
          simp only [this, Bool.false_eq_true, if_false, hr, List.map_nil, Rose.map_node, h1]
          simp only [List.map_nil] at h2
          rw [h2]
        | cons c cs =>
          have : r.children.truthy = true := by rw [hrc]; rfl
          simp only [this, if_true, update_strip, Rose.map_node, h1, collapseList_eq]
          congr 1
          have e1 : (ks.map (collapse opts.collapsed)).map (Rose.map strip)
              = (ks.map (Rose.map strip)).map (collapse opts.collapsed) := by
            simp only [List.map_map]
            exact List.map_congr_left (fun t _ => by simpa using collapse_strip opts.collapsed t)
          rw [e1, h2]
          simp only [List.map_map]
          exact List.map_congr_left (fun t _ => by
            simp only [Function.comp_apply]
            rw [hierarchy_strip, collapse_hierarchy]
            conv_lhs => rw [← hierarchy_strip 1 t]
            rw [Rose.map_map, Rose.map_map]
            congr 1
            funext o
            exact (collapseObj_strip opts.collapsed o).symm)
      · simp only [hct, Bool.false_eq_true, if_false, update_strip, hr, Rose.map_node, h1, h2]
/-! ## The hierarchy after `renderValue` and after events, ids ignored -/

theorem objAt_initTree (x : Input) (p : Addr) :
    (initTree x).objAt p = (Rose.getAt p x.data).map (initObj x.options.collapsed p) := by
  obtain ⟨data, opts⟩ := x
  cases data with
  | node d cs =>
    cases p with
    | nil => rfl
    | cons i q =>
      simp only [initTree, Rose.objAt_cons, List.getElem?_map, Rose.getAt]
      cases cs[i]? with
      | none => rfl
      | some c =>
        simp only [Option.map_some', Option.some_bind, initObj, List.cons_ne_nil, if_false,
          List.length_cons]
        by_cases hc : opts.collapsed.truthy = true
        · simp only [hc, if_true, Rose.objAt_map, objAt_hierarchy]
          cases Rose.getAt q c with
          | none => rfl
          | some s => simp [Nat.add_comm, initObj, hc]
        · simp only [hc, Bool.false_eq_true, if_false, objAt_hierarchy]
          cases Rose.getAt q c with
          | none => rfl
          | some s => simp [Nat.add_comm, initObj, hc]

theorem strip_initObj (c : Collapsed) (p : Addr) (s : Data) :
    strip (initObj c p s) = initObj c p s := by
  unfold initObj
  split
  · rfl
  · split
    · rw [collapseObj_strip]; rfl
    · rfl

theorem render_objAt (old : List Addr) (x : Input) (w : Widget) (p : Addr) :
    ((renderValue old x w).widget.root.objAt p).map strip
      = (Rose.getAt p x.data).map (initObj x.options.collapsed p) := by
  rw [← Rose.objAt_map, renderValue_strip, Rose.objAt_map, objAt_initTree]
  cases Rose.getAt p x.data with
  | none => rfl
  | some s => simp [strip_initObj]

theorem foldl_stepTree_inv (P : NodeObj → Prop) (hclick : ∀ o, P o → P (clickObj o))
    (es : List Event) (t : Tree) (h0 : ∀ q o, t.objAt q = some o → P o) :
    ∀ q o, (es.foldl stepTree t).objAt q = some o → P o := by
  induction es generalizing t with
  | nil => exact h0
  | cons e es ih =>
    simp only [List.foldl_cons]
    apply ih
    intro q o hq
    cases e with
    | click old p =>
      simp only [stepTree, Rose.objAt_modifyAt] at hq
      split at hq
      · cases h : t.objAt q with
        | none => rw [h] at hq; cases hq
        | some o0 =>
          rw [h] at hq
          simp only [Option.map_some', Option.some.injEq] at hq
          subst hq
          exact hclick o0 (h0 q o0 h)
      · exact h0 q o hq
    | resize old width height => exact h0 q o hq

theorem run_inv (P : NodeObj → Prop) (hclick : ∀ o, P o → P (clickObj o))
    (hstrip : ∀ o, P (strip o) → P o)
    (old : List Addr) (x : Input) (w : Widget) (es : List Event)
    (h0 : ∀ q s, Rose.getAt q x.data = some s → P (initObj x.options.collapsed q s)) :
    ∀ q o, (run (renderValue old x w).widget es).root.objAt q = some o → P o := by
  intro q o hq
  apply hstrip
  have h1 : ((run (renderValue old x w).widget es).root.map strip).objAt q = some (strip o) := by
    rw [Rose.objAt_map, hq]; rfl
  rw [run_strip] at h1
  refine foldl_stepTree_inv P hclick es _ ?_ q (strip o) h1
  intro q2 o2 h2
  rw [Rose.objAt_map] at h2
  have h3 := render_objAt old x w q2
  cases hg : Rose.getAt q2 x.data with
  | none =>
    rw [hg] at h3
    cases ho : (renderValue old x w).widget.root.objAt q2 with
    | none => rw [ho] at h2; cases h2
    | some o3 => rw [ho] at h3; cases h3
  | some s =>
    rw [hg] at h3
    rw [h3] at h2
    simp only [Option.map_some', Option.some.injEq] at h2
    subst h2
    exact h0 q2 s hg

theorem view_clickObj_twice (o : NodeObj) : view (clickObj (clickObj o)) = view o := by
  obtain ⟨data, depth, c, h, s, id, rid⟩ := o
  cases c <;> cases h <;> rcases s with _ | _ | _ <;> rfl

theorem view_strip (o : NodeObj) : view (strip o) = view o := rfl

theorem map_view_strip (t : Tree) : (t.map strip).map view = t.map view := by
  rw [Rose.map_map]; rfl

theorem descendants_view (t : Tree) :
    descendants t = (t.map view).bfsBy (fun v => v.1) := by
  rw [Rose.bfsBy_map]; rfl

theorem selectedAddrs_view (t : Tree) :
    selectedAddrs t
      = (t.map view).addrs.filter (fun p => decide (((t.map view).objAt p).map Prod.snd = some true)) := by
  rw [selectedAddrs, Rose.addrs_map]
  congr 1
  funext p
  rw [Rose.objAt_map]
  cases t.objAt p with
  | none => rfl
  | some o => simp [view]

theorem click_click_view (old1 old2 : List Addr) (p : Addr) (w : Widget) :
    (click old2 p (click old1 p w)).root.map view = w.root.map view := by
  have h1 : (click old2 p (click old1 p w)).root.map strip
      = Rose.modifyAt (clickObj ∘ clickObj) p (w.root.map strip) := by
    have a := step_strip (click old1 p w) (Event.click old2 p)
    have b := step_strip w (Event.click old1 p)
    simp only [step, stepTree] at a b
    rw [a, b, Rose.modifyAt_modifyAt]
  rw [← map_view_strip, h1,
    Rose.map_modifyAt_same view (clickObj ∘ clickObj) (fun o => view_clickObj_twice o),
    map_view_strip]
/-! ## The key function, node by node -/

theorem objAt_key (p q : Addr) (w : Widget) :
    (key p w).2.root.objAt q
      = if q = p then (w.root.objAt q).map (keyObj w p) else w.root.objAt q := by
  unfold key
  cases h : w.root.objAt p with
  | none =>
    by_cases hq : q = p
    · subst hq; simp [h]
    · simp [hq]
  | some d =>
    simp only
    split
    · rename_i hid
      show Rose.objAt (Rose.modifyAt _ p w.root) q = _
      rw [Rose.objAt_modifyAt]
      by_cases hq : q = p
      · subst hq; simp [h, keyObj, hid]
      · simp [hq]
    · rename_i hid
      show Rose.objAt (Rose.modifyAt _ p w.root) q = _
      rw [Rose.objAt_modifyAt]
      by_cases hq : q = p
      · subst hq; simp [h, keyObj, hid]
      · simp [hq]

theorem key_i (p : Addr) (w : Widget) :
    (key p w).2.i =
      match w.root.objAt p with
      | some d => if idTruthy d.id then w.i else w.i + 1
      | none => w.i := by
  unfold key
  cases h : w.root.objAt p with
  | none => rfl
  | some d => simp only; split <;> rfl

theorem key_fst (p : Addr) (w : Widget) (d : NodeObj) (h : w.root.objAt p = some d)
    (hid : idTruthy d.id = true) : (key p w).1 = d.id := by
  unfold key
  simp [h, hid]

theorem key_i_le (p : Addr) (w : Widget) : w.i ≤ (key p w).2.i := by
  rw [key_i]
  cases w.root.objAt p with
  | none => exact Nat.le_refl _
  | some d =>
    simp only
    split
    · exact Nat.le_refl _
    · exact Nat.le_succ _

theorem idTruthy_iff (x : Option Nat) : idTruthy x = true ↔ ∃ k, x = some k ∧ k ≠ 0 := by
  cases x with
  | none => simp [idTruthy]
  | some k => simp [idTruthy]

theorem idAt_key (p q : Addr) (w : Widget) :
    idAt (key p w).2.root q
      = if q = p ∧ (w.root.objAt p).isSome = true ∧ idTruthy (idAt w.root p) = false
        then some (w.i + 1) else idAt w.root q := by
  rw [idAt, objAt_key]
  by_cases hq : q = p
  · subst hq
    cases h : w.root.objAt q with
    | none => simp [idAt, h]
    | some d =>
      simp only [if_true, Option.map_some', Option.some_bind, keyObj, true_and, Option.isSome_some,
        idAt, h]
      cases hid : idTruthy d.id <;> simp
  · simp [hq, idAt]

theorem key_keeps_id (p q : Addr) (w : Widget) (k : Nat) (h : idAt w.root q = some k)
    (hk : k ≠ 0) : idAt (key p w).2.root q = some k := by
  rw [idAt_key]
  split
  · rename_i hc
    obtain ⟨rfl, _, h3⟩ := hc
    rw [h] at h3
    simp [idTruthy, hk] at h3
  · exact h

theorem key_idsOk (p : Addr) (w : Widget) (h : IdsOk w) : IdsOk (key p w).2 := by
  obtain ⟨hb, hinj⟩ := h
  have hle := key_i_le p w
  constructor
  · intro q k hq
    rw [idAt_key] at hq
    split at hq
    · rename_i hc
      obtain ⟨rfl, h2, h3⟩ := hc
      simp only [Option.some.injEq] at hq
      subst hq
      rw [key_i]
      cases ho : w.root.objAt q with
      | none => rw [ho] at h2; cases h2
      | some d =>
        have : idTruthy d.id = false := by simpa [idAt, ho] using h3
        simp [this]
    · have := hb q k hq
      omega
  · intro q r k hq hr
    rw [idAt_key] at hq hr
    split at hq
    · rename_i hc
      split at hr
      · rename_i hc2
        rw [hc.1, hc2.1]
      · simp only [Option.some.injEq] at hq
        have := hb r k hr
        omega
    · split at hr
      · simp only [Option.some.injEq] at hr
        have := hb q k hq
        omega
      · exact hinj q r k hq hr

theorem keyAll_cons (p : Addr) (ps : List Addr) (w : Widget) :
    keyAll (p :: ps) w = keyAll ps (key p w).2 := rfl

theorem keyAll_append (ps qs : List Addr) (w : Widget) :
    keyAll (ps ++ qs) w = keyAll qs (keyAll ps w) := by
  simp [keyAll, List.foldl_append]

theorem keyAll_idsOk (ps : List Addr) (w : Widget) (h : IdsOk w) : IdsOk (keyAll ps w) := by
  induction ps generalizing w with
  | nil => exact h
  | cons p ps ih => exact ih _ (key_idsOk p w h)

theorem keyAll_keeps_id (ps : List Addr) (q : Addr) (w : Widget) (k : Nat)
    (h : idAt w.root q = some k) (hk : k ≠ 0) : idAt (keyAll ps w).root q = some k := by
  induction ps generalizing w with
  | nil => exact h
  | cons p ps ih => exact ih _ (key_keeps_id p q w k h hk)

theorem key_isSome (p q : Addr) (w : Widget) :
    ((key p w).2.root.objAt q).isSome = (w.root.objAt q).isSome := by
  rw [objAt_key]
  split <;> simp

theorem keyAll_isSome (ps : List Addr) (q : Addr) (w : Widget) :
    ((keyAll ps w).root.objAt q).isSome = (w.root.objAt q).isSome := by
  induction ps generalizing w with
  | nil => rfl
  | cons p ps ih => rw [keyAll_cons, ih, key_isSome]

theorem idAt_truthy (t : Tree) (q : Addr) (o : NodeObj) (h : t.objAt q = some o) :
    idTruthy (idAt t q) = idTruthy o.id := by
  simp [idAt, h]

theorem key_assigns (p : Addr) (w : Widget) (h : (w.root.objAt p).isSome = true) :
    idTruthy (idAt (key p w).2.root p) = true := by
  rw [idAt_key]
  by_cases hc : idTruthy (idAt w.root p) = true
  · simp [hc]
  · rw [if_pos ⟨rfl, h, by simpa using hc⟩]
    rfl

theorem keyAll_assigns (ps : List Addr) (q : Addr) (w : Widget) (hq : q ∈ ps)
    (h : (w.root.objAt q).isSome = true) : idTruthy (idAt (keyAll ps w).root q) = true := by
  induction ps generalizing w with
  | nil => cases hq
  | cons p ps ih =>
    rw [keyAll_cons]
    by_cases hm : q ∈ ps
    · exact ih _ hm (by rw [key_isSome]; exact h)
    · have : q = p := by
        rcases List.mem_cons.1 hq with e | e
        · exact e
        · exact absurd e hm
      subst this
      have h1 := key_assigns q w h
      obtain ⟨k, hk, hk0⟩ := (idTruthy_iff _).1 h1
      rw [keyAll_keeps_id ps q _ k hk hk0]
      simp [idTruthy, hk0]

theorem allIds_iff (t : Tree) :
    AllIds t ↔ ∀ q, (t.objAt q).isSome = true → idTruthy (idAt t q) = true := by
  constructor
  · intro h q hq
    cases ho : t.objAt q with
    | none => rw [ho] at hq; cases hq
    | some o => rw [idAt_truthy t q o ho]; exact h q o ho
  · intro h q o ho
    rw [← idAt_truthy t q o ho]
    exact h q (by rw [ho]; rfl)

theorem key_allIds (p : Addr) (w : Widget) (h : AllIds w.root) : AllIds (key p w).2.root := by
  rw [allIds_iff] at h ⊢
  intro q hq
  rw [key_isSome] at hq
  obtain ⟨k, hk, hk0⟩ := (idTruthy_iff _).1 (h q hq)
  rw [key_keeps_id p q w k hk hk0]
  simp [idTruthy, hk0]

theorem keyAll_allIds (ps : List Addr) (w : Widget) (h : AllIds w.root) :
    AllIds (keyAll ps w).root := by
  induction ps generalizing w with
  | nil => exact h
  | cons p ps ih => exact ih _ (key_allIds p w h)

theorem key_depthOk (p : Addr) (w : Widget) (h : DepthOk w.root) : DepthOk (key p w).2.root := by
  intro q o hq
  rw [objAt_key] at hq
  split at hq
  · cases ho : w.root.objAt q with
    | none => rw [ho] at hq; cases hq
    | some o0 =>
      rw [ho] at hq
      simp only [Option.map_some', Option.some.injEq] at hq
      subst hq
      exact h q o0 ho
  · exact h q o hq

theorem keyAll_depthOk (ps : List Addr) (w : Widget) (h : DepthOk w.root) :
    DepthOk (keyAll ps w).root := by
  induction ps generalizing w with
  | nil => exact h
  | cons p ps ih => exact ih _ (key_depthOk p w h)
/-! ## `root_id` after the key function has run over a breadth-first list -/

theorem getAt_take_isSome {α : Type} (p : Addr) (n : Nat) (t : Rose α)
    (h : (Rose.getAt p t).isSome = true) : (Rose.getAt (p.take n) t).isSome = true := by
  induction p generalizing n t with
  | nil => simpa using h
  | cons i p ih =>
    cases n with
    | zero => rfl
    | succ n =>
      cases t with
      | node o ks =>
        simp only [List.take_succ_cons, Rose.getAt] at h ⊢
        cases hk : ks[i]? with
        | none => rw [hk] at h; cases h
        | some c =>
          rw [hk] at h
          simpa using ih n c (by simpa using h)

theorem objAt_isSome {α : Type} (t : Rose α) (p : Addr) :
    (t.objAt p).isSome = (Rose.getAt p t).isSome := by
  simp [Rose.objAt]

theorem objAt_take_isSome {α : Type} (p : Addr) (n : Nat) (t : Rose α)
    (h : (t.objAt p).isSome = true) : (t.objAt (p.take n)).isSome = true := by
  rw [objAt_isSome] at h ⊢
  exact getAt_take_isSome p n t h

theorem objAt_dropLast_isSome {α : Type} (p : Addr) (t : Rose α)
    (h : (t.objAt p).isSome = true) : (t.objAt p.dropLast).isSome = true := by
  rw [List.dropLast_eq_take]
  exact objAt_take_isSome p _ t h

theorem take_one_dropLast (p : Addr) (h : 1 < p.length) : p.dropLast.take 1 = p.take 1 := by
  cases p with
  | nil => rfl
  | cons i p =>
    cases p with
    | nil => simp at h
    | cons j q => rfl

theorem key_same_id (p r : Addr) (w : Widget) (hall : AllIds w.root) (a : NodeObj)
    (ha : w.root.objAt r = some a) :
    ∃ b, (key p w).2.root.objAt r = some b ∧ b.id = a.id := by
  rw [objAt_key]
  by_cases hr : r = p
  · subst hr
    refine ⟨keyObj w r a, by simp [ha], ?_⟩
    simp [keyObj, hall r a ha]
  · exact ⟨a, by simp [hr, ha], rfl⟩

theorem key_rootOk (p : Addr) (S : List Addr) (w : Widget) (hall : AllIds w.root)
    (hd : DepthOk w.root) (hr : RootOk S w.root) (hp : 1 < p.length → p.dropLast ∈ S) :
    RootOk (p :: S) (key p w).2.root := by
  intro q hq o ho hlen
  by_cases hqp : q = p
  · subst hqp
    rw [objAt_key] at ho
    simp only [if_true] at ho
    cases hd0 : w.root.objAt q with
    | none => rw [hd0] at ho; cases ho
    | some d =>
      rw [hd0] at ho
      simp only [Option.map_some', Option.some.injEq] at ho
      subst ho
      have hdep : d.depth = q.length := hd q d hd0
      by_cases h1 : 1 < q.length
      · have hne : q ≠ [] := by intro e; subst e; simp at h1
        have hpar : (w.root.objAt q.dropLast).isSome = true :=
          objAt_dropLast_isSome q w.root (by rw [hd0]; rfl)
        cases hp0 : w.root.objAt q.dropLast with
        | none => rw [hp0] at hpar; cases hpar
        | some par =>
          have hl : 1 ≤ q.dropLast.length := by
            rw [List.length_dropLast]; omega
          obtain ⟨a, ha, hra⟩ := hr q.dropLast (hp h1) par hp0 hl
          rw [take_one_dropLast q h1] at ha
          obtain ⟨b, hb, hba⟩ := key_same_id q (q.take 1) w hall a ha
          refine ⟨b, hb, ?_⟩
          have : (keyObj w q d).root_id = par.root_id := by
            simp [keyObj, hdep, h1, parentAddr, hne, hp0]
          rw [this, hra, hba]
      · have h1' : q.length = 1 := by omega
        have ht : q.take 1 = q := by
          rw [List.take_of_length_le]; omega
        rw [ht]
        refine ⟨keyObj w q d, by rw [objAt_key]; simp [hd0], ?_⟩
        simp [keyObj, hdep, h1, hall q d hd0]
  · have hqS : q ∈ S := by
      rcases List.mem_cons.1 hq with e | e
      · exact absurd e hqp
      · exact e
    rw [objAt_key] at ho
    simp only [hqp, if_false] at ho
    obtain ⟨a, ha, hra⟩ := hr q hqS o ho hlen
    obtain ⟨b, hb, hba⟩ := key_same_id p (q.take 1) w hall a ha
    exact ⟨b, hb, by rw [hra, hba]⟩

theorem rootOk_subset (S S2 : List Addr) (t : Tree) (h : ∀ p, p ∈ S2 → p ∈ S)
    (hr : RootOk S t) : RootOk S2 t :=
  fun p hp => hr p (h p hp)

theorem keyAll_rootOk (L S : List Addr) (w : Widget) (hall : AllIds w.root)
    (hd : DepthOk w.root) (hr : RootOk S w.root) (hc : Closed S L) :
    RootOk (L ++ S) (keyAll L w).root := by
  induction L generalizing S w with
  | nil => exact hr
  | cons p L ih =>
    rw [keyAll_cons]
    obtain ⟨hp, hc2⟩ := hc
    have := ih (p :: S) (key p w).2 (key_allIds p w hall) (key_depthOk p w hd)
      (key_rootOk p S w hall hd hr hp) hc2
    exact rootOk_subset _ _ _ (fun q hq => by
      simp only [List.mem_append, List.mem_cons] at hq ⊢
      tauto) this

theorem closed_mono (S S2 L : List Addr) (h : ∀ p, p ∈ S → p ∈ S2) (hc : Closed S L) :
    Closed S2 L := by
  induction L generalizing S S2 with
  | nil => trivial
  | cons p L ih =>
    obtain ⟨h1, h2⟩ := hc
    refine ⟨fun hl => h _ (h1 hl), ih (p :: S) (p :: S2) ?_ h2⟩
    intro q hq
    rcases List.mem_cons.1 hq with e | e
    · exact List.mem_cons.2 (Or.inl e)
    · exact List.mem_cons.2 (Or.inr (h q e))

theorem closed_of_forall (S L : List Addr)
    (h : ∀ p, p ∈ L → 1 < p.length → p.dropLast ∈ S) : Closed S L := by
  induction L generalizing S with
  | nil => trivial
  | cons p L ih =>
    refine ⟨h p (List.mem_cons_self _ _), ih (p :: S) ?_⟩
    intro q hq hl
    exact List.mem_cons_of_mem _ (h q (List.mem_cons_of_mem _ hq) hl)

theorem closed_append (S A B : List Addr) (hA : Closed S A)
    (hB : ∀ p, p ∈ B → 1 < p.length → p.dropLast ∈ A ∨ p.dropLast ∈ S) :
    Closed S (A ++ B) := by
  induction A generalizing S with
  | nil =>
    exact closed_of_forall S B (fun p hp hl => by
      rcases hB p hp hl with h | h
      · cases h
      · exact h)
  | cons a A ih =>
    obtain ⟨h1, h2⟩ := hA
    refine ⟨h1, ih (a :: S) h2 ?_⟩
    intro p hp hl
    rcases hB p hp hl with h | h
    · rcases List.mem_cons.1 h with e | e
      · exact Or.inr (List.mem_cons.2 (Or.inl e))
      · exact Or.inl e
    · exact Or.inr (List.mem_cons_of_mem _ h)

theorem closed_flatMap_range (L : Nat → List Addr) (n : Nat)
    (h1 : ∀ k p, p ∈ L k → p.length = k)
    (h2 : ∀ k p, p ∈ L (k + 1) → p.dropLast ∈ L k) :
    Closed [] ((List.range n).flatMap L) := by
  induction n with
  | zero => trivial
  | succ n ih =>
    rw [List.range_succ, List.flatMap_append]
    refine closed_append [] _ _ ih ?_
    intro p hp hl
    simp only [List.flatMap_cons, List.flatMap_nil, List.append_nil] at hp
    have hn := h1 n p hp
    cases n with
    | zero => omega
    | succ m =>
      refine Or.inl ?_
      simp only [List.mem_flatMap, List.mem_range]
      exact ⟨m, Nat.lt_succ_self m, h2 m p hp⟩

theorem closed_bfsBy {α : Type} (op : α → Bool) (t : Rose α) : Closed [] (t.bfsBy op) := by
  refine closed_flatMap_range _ _ (fun k p hp => ((Rose.mem_levelBy op k t p).1 hp).1) ?_
  intro k p hp
  obtain ⟨hl, hv⟩ := (Rose.mem_levelBy op (k + 1) t p).1 hp
  exact (Rose.mem_levelBy op k t _).2
    ⟨by rw [List.length_dropLast]; omega, Rose.visibleBy_dropLast op p t hv⟩
/-! ## The selection record computed by `update` -/

theorem forall2_filterMap {α β : Type} (f : α → Option β) (l : List α) :
    List.Forall₂ (fun a b => a ∈ l ∧ f a = some b)
      (l.filter (fun a => (f a).isSome)) (l.filterMap f) := by
  induction l with
  | nil => exact List.Forall₂.nil
  | cons a l ih =>
    have ih2 : List.Forall₂ (fun x b => x ∈ a :: l ∧ f x = some b)
        (l.filter (fun a => (f a).isSome)) (l.filterMap f) :=
      ih.imp (fun x b h => ⟨List.mem_cons_of_mem _ h.1, h.2⟩)
    cases h : f a with
    | none => simpa [List.filter_cons, List.filterMap_cons, h] using ih2
    | some b =>
      simp only [List.filter_cons, List.filterMap_cons, h, Option.isSome_some, if_true]
      exact List.Forall₂.cons ⟨List.mem_cons_self _ _, h⟩ ih2

theorem pick_congr (w v : Widget) (hr : w.root = v.root)
    (hh : w.options.hierarchy = v.options.hierarchy) : pick w = pick v := by
  funext p
  simp only [pick, record, hr, hh]

theorem update_nestEq (old : List Addr) (w : Widget) : NestEq (update old w) := by
  unfold NestEq
  rw [descendants_update]
  rfl

theorem nestEq_congr (w v : Widget) (hr : w.root = v.root)
    (hh : w.options.hierarchy = v.options.hierarchy) (hn : w.newnest = v.newnest)
    (h : NestEq v) : NestEq w := by
  unfold NestEq at h ⊢
  rw [hn, hr, pick_congr w v hr hh]
  exact h

theorem nestOk_of (w : Widget) (hall : AllIds w.root) (hd : DepthOk w.root)
    (hr : RootOk (descendants w.root) w.root) (he : NestEq w) : NestOk w := by
  unfold NestOk
  rw [he]
  refine (forall2_filterMap (pick w) (descendants w.root)).imp ?_
  intro p r ⟨hp, hpick⟩
  unfold pick at hpick
  cases hnd : w.root.objAt p with
  | none => rw [hnd] at hpick; cases hpick
  | some nd =>
    rw [hnd] at hpick
    simp only at hpick
    split at hpick
    · rename_i hpk
      simp only [Option.some.injEq] at hpick
      subst hpick
      simp only [isPicked, Bool.and_eq_true, decide_eq_true_eq] at hpk
      have hdep := hd p nd hnd
      have hlen : 1 ≤ p.length := by omega
      obtain ⟨a, ha, hra⟩ := hr p hp nd hnd hlen
      have hne : p ≠ [] := by intro e; subst e; simp at hlen
      have hpar : (w.root.objAt p.dropLast).isSome = true :=
        objAt_dropLast_isSome p w.root (by rw [hnd]; rfl)
      cases hp0 : w.root.objAt p.dropLast with
      | none => rw [hp0] at hpar; cases hpar
      | some par =>
        refine ⟨nd, a, par, hnd, hpk.1, hdep, hpk.2, ha, ?_, hall _ a ha, hra, hp0, ?_, rfl, rfl⟩
        · rw [hd _ a ha, List.length_take]; omega
        · simp [record, parentAddr, hne, hp0]
    · cases hpick

theorem nestOk_congr (w v : Widget) (hr : w.root = v.root)
    (hh : w.options.hierarchy = v.options.hierarchy) (hn : w.newnest = v.newnest)
    (h : NestOk v) : NestOk w := by
  unfold NestOk at h ⊢
  rw [hn, hr, pick_congr w v hr hh]
  refine h.imp ?_
  intro p r ⟨nd, a, par, h1, h2, h3, h4, h5, h6, h7, h8, h9, h10, h11, h12⟩
  exact ⟨nd, a, par, by rw [hr]; exact h1, h2, h3, h4, by rw [hr]; exact h5, h6, h7, h8,
    by rw [hr]; exact h9, h10, by rw [hh]; exact h11, h12⟩

/-! ## Invariants of the reachable states -/

theorem objAt_idDepth (t u : Tree) (h : t.map idDepth = u.map idDepth) (q : Addr) :
    (t.objAt q).map idDepth = (u.objAt q).map idDepth := by
  rw [← Rose.objAt_map, ← Rose.objAt_map, h]

theorem idAt_congr (t u : Tree) (h : t.map idDepth = u.map idDepth) (q : Addr) :
    idAt t q = idAt u q := by
  have := objAt_idDepth t u h q
  unfold idAt
  cases ht : t.objAt q with
  | none =>
    cases hu : u.objAt q with
    | none => rfl
    | some b => rw [ht, hu] at this; cases this
  | some a =>
    cases hu : u.objAt q with
    | none => rw [ht, hu] at this; cases this
    | some b =>
      rw [ht, hu] at this
      simp only [Option.map_some', Option.some.injEq, idDepth, Prod.mk.injEq] at this
      simp [this.1]

theorem allIds_congr (t u : Tree) (h : t.map idDepth = u.map idDepth) (hu : AllIds u) :
    AllIds t := by
  intro q a ha
  have := objAt_idDepth t u h q
  cases hb : u.objAt q with
  | none => rw [ha, hb] at this; cases this
  | some b =>
    rw [ha, hb] at this
    simp only [Option.map_some', Option.some.injEq, idDepth, Prod.mk.injEq] at this
    rw [this.1]
    exact hu q b hb

theorem depthOk_congr (t u : Tree) (h : t.map idDepth = u.map idDepth) (hu : DepthOk u) :
    DepthOk t := by
  intro q a ha
  have := objAt_idDepth t u h q
  cases hb : u.objAt q with
  | none => rw [ha, hb] at this; cases this
  | some b =>
    rw [ha, hb] at this
    simp only [Option.map_some', Option.some.injEq, idDepth, Prod.mk.injEq] at this
    rw [this.2]
    exact hu q b hb

theorem idsOk_congr (w v : Widget) (h : w.root.map idDepth = v.root.map idDepth)
    (hi : w.i = v.i) (hv : IdsOk v) : IdsOk w := by
  obtain ⟨h1, h2⟩ := hv
  constructor
  · intro q k hq
    rw [idAt_congr _ _ h] at hq
    rw [hi]
    exact h1 q k hq
  · intro q r k hq hr
    rw [idAt_congr _ _ h] at hq hr
    exact h2 q r k hq hr

theorem good_update (old : List Addr) (w : Widget) (hall : AllIds w.root) (hi : IdsOk w)
    (hd : DepthOk w.root) : Good (update old w) := by
  have hall1 := keyAll_allIds old w hall
  have hd1 := keyAll_depthOk old w hd
  have hall2 : AllIds (update old w).root := keyAll_allIds _ _ hall1
  have hd2 : DepthOk (update old w).root := keyAll_depthOk _ _ hd1
  have hi2 : IdsOk (update old w) := keyAll_idsOk _ _ (keyAll_idsOk old w hi)
  have hr : RootOk (descendants (update old w).root) (update old w).root := by
    rw [descendants_update]
    have := keyAll_rootOk (descendants w.root) [] (keyAll old w) hall1 hd1
      (fun p hp => by cases hp) (closed_bfsBy _ _)
    simpa using this
  exact ⟨hall2, hi2, hd2, update_nestEq old w, nestOk_of _ hall2 hd2 hr (update_nestEq old w)⟩

theorem idDepth_clickObj (o : NodeObj) : idDepth (clickObj o) = idDepth o := by
  unfold clickObj idDepth
  simp only
  split <;> split <;> rfl

theorem good_step (w : Widget) (e : Event) (h : Good w) : Good (step w e) := by
  obtain ⟨hall, hi, hd, _, _⟩ := h
  cases e with
  | click old p =>
    have hm : (w.root.modifyAt clickObj p).map idDepth = w.root.map idDepth :=
      Rose.map_modifyAt_same idDepth clickObj idDepth_clickObj p w.root
    exact good_update old _ (allIds_congr _ _ hm hall)
      (idsOk_congr { w with root := w.root.modifyAt clickObj p } w hm rfl hi)
      (depthOk_congr _ _ hm hd)
  | resize old width height =>
    exact good_update old _ hall hi hd

theorem good_run (w : Widget) (es : List Event) (h : Good w) : Good (run w es) := by
  induction es generalizing w with
  | nil => exact h
  | cons e es ih => exact ih _ (good_step w e h)
/-! ## The state after `renderValue` -/

theorem collapse_map_same {β : Type} (f : NodeObj → β) (c : Collapsed)
    (hf : ∀ o : NodeObj, f { o with _children := o.children, children := Slot.null } = f o)
    (t : Tree) : (collapse c t).map f = t.map f := by
  induction t using Rose.induct with
  | h o ks ih =>
    have hk : (ks.map (collapse c)).map (Rose.map f) = ks.map (Rose.map f) := by
      rw [List.map_map]
      exact List.map_congr_left (fun t ht => by simpa using ih t ht)
    rw [collapse, collapseList_eq]
    split
    · rw [Rose.map_node, Rose.map_node, hk]
    · split
      · rw [Rose.map_node, Rose.map_node, hk, hf]
      · rfl

theorem collapseList_map_same {β : Type} (f : NodeObj → β) (c : Collapsed)
    (hf : ∀ o : NodeObj, f { o with _children := o.children, children := Slot.null } = f o)
    (r : NodeObj) (ks : List Tree) :
    (Rose.node r (collapseList c ks)).map f = (Rose.node r ks).map f := by
  rw [Rose.map_node, Rose.map_node, collapseList_eq, List.map_map]
  congr 1
  exact List.map_congr_left (fun t _ => by simpa using collapse_map_same f c hf t)

theorem descendants_modifyAt (g : NodeObj → NodeObj) (hg : ∀ o, (g o).children = o.children)
    (p : Addr) (t : Tree) : descendants (t.modifyAt g p) = descendants t := by
  have h : ∀ u : Tree, descendants u
      = (u.map (fun o => o.children.truthy)).bfsBy (fun b => b) := by
    intro u; rw [Rose.bfsBy_map]; rfl
  rw [h, h, Rose.map_modifyAt_same _ g (fun o => by simp [hg]) p t]

theorem defaultLength_hierarchy (width : ℚ) (o : Options) :
    (defaultLength width o).hierarchy = o.hierarchy := by
  unfold defaultLength; split <;> rfl

theorem defaultLength_collapsed (width : ℚ) (o : Options) :
    (defaultLength width o).collapsed = o.collapsed := by
  unfold defaultLength; split <;> rfl

/-- The hierarchy that `renderValue` hands to its first `update`. -/
theorem first_objAt (data : Data) (q : Addr) :
    ((hierarchy 0 data).modifyAt (fun o => { o with _isSelected := some true }) []).objAt q
      = (Rose.getAt q data).map (fun s =>
          if q = [] then { fresh q.length s.obj s.kids with _isSelected := some true }
          else fresh q.length s.obj s.kids) := by
  rw [Rose.objAt_modifyAt, objAt_hierarchy]
  cases Rose.getAt q data with
  | none => simp
  | some s => by_cases hq : q = [] <;> simp [hq]

theorem good_first (data : Data) (o : Options) (w : Widget) :
    Good (update []
      { w with
        root := (hierarchy 0 data).modifyAt (fun o => { o with _isSelected := some true }) []
        options := o }) := by
  generalize hW : ({ w with
        root := (hierarchy 0 data).modifyAt (fun o => { o with _isSelected := some true }) []
        options := o } : Widget) = W
  have hroot : W.root
      = (hierarchy 0 data).modifyAt (fun o => { o with _isSelected := some true }) [] := by
    rw [← hW]
  have hobj := fun q => first_objAt data q
  have hid : ∀ q, idAt W.root q = none := by
    intro q
    rw [idAt, hroot, hobj]
    cases Rose.getAt q data with
    | none => rfl
    | some s => by_cases hq : q = [] <;> simp [hq, fresh]
  have hi : IdsOk W :=
    ⟨fun q k hq => (by rw [hid] at hq; cases hq), fun q r k hq _ => (by rw [hid] at hq; cases hq)⟩
  have hd : DepthOk W.root := by
    intro q a ha
    rw [hroot, hobj] at ha
    cases hs : Rose.getAt q data with
    | none => rw [hs] at ha; cases ha
    | some s =>
      rw [hs] at ha
      simp only [Option.map_some', Option.some.injEq] at ha
      subst ha
      by_cases hq : q = [] <;> simp [hq, fresh]
  have hdesc : descendants W.root = data.addrs := by
    rw [hroot, descendants_modifyAt (fun o => { o with _isSelected := some true }) (fun o => rfl),
      descendants_hierarchy]
  have hall : AllIds (update [] W).root := by
    rw [allIds_iff]
    intro q hq
    rw [update_root, keyAll_isSome] at hq
    have hq2 : q ∈ descendants W.root := by
      rw [hdesc, Rose.mem_addrs]
      have hq3 : (W.root.objAt q).isSome = true := hq
      rw [hroot, hobj] at hq3
      cases hs : Rose.getAt q data with
      | none => rw [hs] at hq3; cases hq3
      | some s => rfl
    exact keyAll_assigns (descendants W.root) q (keyAll [] W) hq2 hq
  have hi2 : IdsOk (update [] W) := keyAll_idsOk _ _ (keyAll_idsOk [] W hi)
  have hd2 : DepthOk (update [] W).root := keyAll_depthOk _ _ (keyAll_depthOk [] W hd)
  have hne := update_nestEq [] W
  have hpick : ∀ p, pick (update [] W) p = none := by
    intro p
    unfold pick
    cases hnd : (update [] W).root.objAt p with
    | none => rfl
    | some nd =>
      simp only
      have hs : ((update [] W).root.objAt p).map strip = (W.root.objAt p).map strip := by
        rw [← Rose.objAt_map, update_strip, Rose.objAt_map]
      rw [hnd, hroot, hobj] at hs
      cases hg : Rose.getAt p data with
      | none => rw [hg] at hs; cases hs
      | some s =>
        rw [hg] at hs
        simp only [Option.map_some', Option.some.injEq] at hs
        have h1 := congrArg NodeObj.depth hs
        have h2 := congrArg NodeObj._isSelected hs
        by_cases hp : p = []
        · simp only [hp, if_true, strip, fresh, List.length_nil] at h1
          simp [isPicked, h1]
        · simp only [hp, if_false, strip, fresh] at h2
          simp [isPicked, h2]
  have hok : NestOk (update [] W) := by
    unfold NestOk
    rw [hne]
    have e1 : (descendants (update [] W).root).filter (fun p => (pick (update [] W) p).isSome)
        = [] := by
      rw [List.filter_eq_nil_iff]
      intro p _
      simp [hpick p]
    have e2 : (descendants (update [] W).root).filterMap (pick (update [] W)) = [] := by
      rw [List.filterMap_eq_nil_iff]
      intro p _
      exact hpick p
    rw [e1, e2]
    exact List.Forall₂.nil
  exact ⟨hall, hi2, hd2, hne, hok⟩

theorem idDepth_collapsed (o : NodeObj) :
    idDepth { o with _children := o.children, children := Slot.null } = idDepth o := rfl

theorem good_render (old : List Addr) (x : Input) (w : Widget) :
    Good (renderValue old x w).widget := by
  have hg := good_first x.data x.options.toOptions w
  unfold renderValue
  simp only
  generalize update []
      { w with
        root := (hierarchy 0 x.data).modifyAt (fun o => { o with _isSelected := some true }) []
        options := x.options.toOptions } = U at hg ⊢
  obtain ⟨hall, hi, hd, hne, hok⟩ := hg
  have hgood2 : Good { U with options := defaultLength w.width U.options } :=
    ⟨hall, hi, hd,
      nestEq_congr _ U rfl (defaultLength_hierarchy _ _) rfl hne,
      nestOk_congr _ U rfl (defaultLength_hierarchy _ _) rfl hok⟩
  split
  · cases hr : U.root with
    | node r ks =>
      simp only
      split
      · have hm := collapseList_map_same idDepth (defaultLength w.width U.options).collapsed
          idDepth_collapsed r ks
        rw [← hr] at hm
        exact good_update old _ (allIds_congr _ _ hm hall)
          (idsOk_congr { U with
              options := defaultLength w.width U.options
              root := Rose.node r (collapseList (defaultLength w.width U.options).collapsed ks) }
            U hm rfl hi)
          (depthOk_congr _ _ hm hd)
      · rw [← hr]
        exact hgood2
  · exact good_update old _ hall hi hd

theorem good_reachable (old : List Addr) (x : Input) (w : Widget) (es : List Event) :
    Good (run (renderValue old x w).widget es) :=
  good_run _ es (good_render old x w)
/-! ## Options across `renderValue` and events -/

theorem render_options (old : List Addr) (x : Input) (w : Widget) :
    (renderValue old x w).widget.options = defaultLength w.width x.options.toOptions := by
  unfold renderValue
  simp only [update_options]
  split
  · split
    split <;> simp only [update_options]
  · simp only [update_options]

theorem step_options (w : Widget) (e : Event) :
    (step w e).options =
      match e with
      | .click _ _ => w.options
      | .resize _ width _ =>
        if w.options.linkResponsive then
          { w.options with
            linkLength := some (responsiveLength
              (width - w.options.margin.left - w.options.margin.right)
              w.options.hierarchy.length) }
        else w.options := by
  cases e with
  | click old p => simp only [step, click, update_options]
  | resize old width height => simp only [step, resize, update_options]

theorem responsiveLength_eq (a : ℚ) (n : Nat) :
    responsiveLength a n = Num.maxFin 175 (Num.twice (Num.quot a n)) := by
  unfold responsiveLength Num.quot
  by_cases hn : n = 0
  · by_cases ha : a = 0
    · simp [hn, ha, Num.twice, Num.ltFin, Num.maxFin]
    · by_cases hp : 0 < a <;> simp [hn, ha, hp, Num.twice, Num.ltFin, Num.maxFin]
  · simp only [hn, if_false, Num.twice, Num.ltFin, Num.maxFin, decide_eq_true_eq]
    split
    · rename_i h
      rw [max_eq_left (le_of_lt h)]
    · rename_i h
      rw [max_eq_right (not_lt.1 h)]

theorem run_responsive (m : Margin) (hs : List String) (w : Widget) (es : List Event)
    (h1 : w.options.linkResponsive = true) (h2 : w.options.margin = m)
    (h3 : w.options.hierarchy = hs) :
    (run w es).options.linkResponsive = true ∧ (run w es).options.margin = m ∧
      (run w es).options.hierarchy = hs := by
  induction es generalizing w with
  | nil => exact ⟨h1, h2, h3⟩
  | cons e es ih =>
    apply ih
    · rw [step_options]; cases e <;> simp [h1]
    · rw [step_options]; cases e <;> simp [h1, h2]
    · rw [step_options]; cases e <;> simp [h1, h3]

theorem run_fixed (l : Num) (w : Widget) (es : List Event)
    (h1 : w.options.linkResponsive = false) (h2 : w.options.linkLength = some l) :
    (run w es).options.linkResponsive = false ∧ (run w es).options.linkLength = some l := by
  induction es generalizing w with
  | nil => exact ⟨h1, h2⟩
  | cons e es ih =>
    apply ih
    · rw [step_options]; cases e <;> simp [h1]
    · rw [step_options]; cases e <;> simp [h1, h2]

/-! ## Ids across events -/

theorem update_keeps_id (old : List Addr) (w : Widget) (q : Addr) (k : Nat)
    (h : idAt w.root q = some k) (hk : k ≠ 0) : idAt (update old w).root q = some k := by
  rw [update_root]
  exact keyAll_keeps_id _ q _ k (keyAll_keeps_id old q w k h hk) hk

theorem step_keeps_id (w : Widget) (e : Event) (q : Addr) (k : Nat)
    (h : idAt w.root q = some k) (hk : k ≠ 0) : idAt (step w e).root q = some k := by
  cases e with
  | click old p =>
    refine update_keeps_id old _ q k ?_ hk
    have hm : (w.root.modifyAt clickObj p).map idDepth = w.root.map idDepth :=
      Rose.map_modifyAt_same idDepth clickObj idDepth_clickObj p w.root
    show idAt (w.root.modifyAt clickObj p) q = some k
    rw [idAt_congr _ _ hm]
    exact h
  | resize old width height => exact update_keeps_id old _ q k h hk

theorem run_keeps_id (w : Widget) (es : List Event) (q : Addr) (k : Nat)
    (h : idAt w.root q = some k) (hk : k ≠ 0) : idAt (run w es).root q = some k := by
  induction es generalizing w with
  | nil => exact h
  | cons e es ih => exact ih _ (step_keeps_id w e q k h hk)

theorem key_fst_idAt (q : Addr) (w : Widget) (k : Nat) (h : idAt w.root q = some k)
    (hk : k ≠ 0) : (key q w).1 = some k := by
  unfold idAt at h
  cases ho : w.root.objAt q with
  | none => rw [ho] at h; cases h
  | some d =>
    rw [ho] at h
    simp only [Option.some_bind] at h
    rw [key_fst q w d ho (by simp [h, idTruthy, hk]), h]

/-! ## Facts about single node objects -/

theorem exclusive_clickObj (o : NodeObj) : Exclusive (clickObj o) := by
  obtain ⟨data, depth, c, h, s, id, rid⟩ := o
  cases c <;> cases h <;> rcases s with _ | _ | _ <;> simp [Exclusive, clickObj, Slot.truthy]

theorem exclusive_initObj (c : Collapsed) (q : Addr) (s : Data) : Exclusive (initObj c q s) := by
  unfold initObj
  split
  · simp [Exclusive, fresh, Slot.truthy]
  · split
    · unfold collapseObj
      split
      · simp [Exclusive, fresh, Slot.truthy]
      · split <;> simp [Exclusive, fresh, Slot.truthy]
    · simp [Exclusive, fresh, Slot.truthy]

theorem agree_clickObj (o : NodeObj) (h : Agree o) : Agree (clickObj o) := by
  obtain ⟨data, depth, c, hc, s, id, rid⟩ := o
  cases c <;> cases hc <;> rcases s with _ | _ | _ <;>
    simp_all [Agree, clickObj, Slot.truthy]

theorem staysOpen_iff (c : Collapsed) (d : Datum) :
    staysOpen c d = true ↔ ∃ v, d.prop c.key = some v ∧ v.truthy = false := by
  unfold staysOpen
  cases d.prop c.key with
  | none => simp
  | some v => cases hv : v.truthy <;> simp [hv]
/-! ## The order of a breadth-first list -/

theorem leftOf_cons (i : Nat) (p q : Addr) : leftOf (i :: p) (i :: q) = leftOf p q := by
  simp [leftOf]

theorem pairwise_kidsLevel {α : Type} (f : Rose α → List Addr) (i : Nat) (cs : List (Rose α))
    (h : ∀ c, c ∈ cs → (f c).Pairwise (fun p q => leftOf p q = true)) :
    (Rose.kidsLevel f i cs).Pairwise (fun p q => leftOf p q = true) := by
  induction cs generalizing i with
  | nil => simp [Rose.kidsLevel]
  | cons d ds ih =>
    simp only [Rose.kidsLevel]
    rw [List.pairwise_append]
    refine ⟨?_, ih (i + 1) (fun c hc => h c (List.mem_cons_of_mem _ hc)), ?_⟩
    · rw [List.pairwise_map]
      exact (h d (List.mem_cons_self _ _)).imp (fun hpq => by rw [leftOf_cons]; exact hpq)
    · intro a ha b hb
      rcases List.mem_map.1 ha with ⟨p, _, rfl⟩
      rcases (Rose.mem_kidsLevel f (i + 1) ds b).1 hb with ⟨j, c, q, _, _, rfl⟩
      have : i < i + 1 + j := by omega
      simp [leftOf, this]

theorem pairwise_levelBy {α : Type} (op : α → Bool) (k : Nat) (t : Rose α) :
    (Rose.levelBy op k t).Pairwise (fun p q => leftOf p q = true) := by
  induction k generalizing t with
  | zero => cases t; simp [Rose.levelBy]
  | succ k ih =>
    cases t with
    | node o ks =>
      simp only [Rose.levelBy]
      split
      · exact pairwise_kidsLevel _ 0 ks (fun c _ => ih c)
      · exact List.Pairwise.nil

theorem pairwise_flatMap_range (L : Nat → List Addr) (n : Nat)
    (h1 : ∀ k, (L k).Pairwise (fun p q => leftOf p q = true))
    (h2 : ∀ k p, p ∈ L k → p.length = k) :
    ((List.range n).flatMap L).Pairwise Earlier := by
  induction n with
  | zero => simp
  | succ n ih =>
    rw [List.range_succ, List.flatMap_append, List.pairwise_append]
    refine ⟨ih, ?_, ?_⟩
    · simp only [List.flatMap_cons, List.flatMap_nil, List.append_nil]
      have hn := h1 n
      rw [List.pairwise_iff_forall_sublist] at hn ⊢
      intro a b hab
      exact Or.inr ⟨by rw [h2 n a (hab.subset (by simp)), h2 n b (hab.subset (by simp))],
        hn hab⟩
    · intro a ha b hb
      simp only [List.mem_flatMap, List.mem_range] at ha
      rcases ha with ⟨k, hk, hak⟩
      simp only [List.flatMap_cons, List.flatMap_nil, List.append_nil] at hb
      exact Or.inl (by rw [h2 k a hak, h2 n b hb]; exact hk)

theorem pairwise_bfsBy {α : Type} (op : α → Bool) (t : Rose α) :
    (t.bfsBy op).Pairwise Earlier :=
  pairwise_flatMap_range _ _ (fun k => pairwise_levelBy op k t)
    (fun k p hp => ((Rose.mem_levelBy op k t p).1 hp).1)

theorem pickedAt_iff (t : Tree) (p : Addr) :
    pickedAt t p = true
      ↔ ∃ nd, t.objAt p = some nd ∧ 0 < nd.depth ∧ nd._isSelected = some true := by
  unfold pickedAt
  cases t.objAt p with
  | none => simp
  | some nd => simp [isPicked]

theorem pick_isSome (w : Widget) (p : Addr) : (pick w p).isSome = pickedAt w.root p := by
  unfold pick pickedAt
  cases w.root.objAt p with
  | none => rfl
  | some nd => cases h : isPicked nd <;> simp [h]
/-! ## The claims -/

/-- C1, as stated, fails: after expanding `A`, selecting `A1` and collapsing `A`
again, the node `A1` has depth 2 and `_isSelected === true`, but it is hidden
under the collapsed `A` and the selection record is empty. -/
theorem c1_hidden_selected_not_listed :
    (((run collapsedStart hideSelected).root.objAt [0, 0]).map
        (fun o => (o.depth, o._isSelected)) = some (2, some true)) ∧
      [0, 0] ∈ selectedAddrs (run collapsedStart hideSelected).root ∧
      [0, 0] ∉ descendants (run collapsedStart hideSelected).root ∧
      (run collapsedStart hideSelected).newnest = [] := by
  decide!

/-- C1, amended: in every state reached from `renderValue` by clicks and resizes,
`newnest` holds exactly one record for each visible node (a node reached from
the root through truthy `children` fields) whose depth is positive and whose
`_isSelected` is `true`, and no other record, in the breadth-first order of
`descendants()`: lesser depth first, within a depth from left to right. -/
theorem c1_newnest_lists_visible_selected (old : List Addr) (x : Input) (w : Widget)
    (es : List Event) :
    (descendants (run (renderValue old x w).widget es).root).Nodup ∧
      (descendants (run (renderValue old x w).widget es).root).Pairwise Earlier ∧
      (∀ p, p ∈ descendants (run (renderValue old x w).widget es).root ↔
        Rose.visibleBy (fun o : NodeObj => o.children.truthy) p
          (run (renderValue old x w).widget es).root = true) ∧
      (∀ p, pickedAt (run (renderValue old x w).widget es).root p = true ↔
        ∃ nd, (run (renderValue old x w).widget es).root.objAt p = some nd ∧
          0 < nd.depth ∧ nd._isSelected = some true) ∧
      List.Forall₂
        (fun p r => ∃ nd, (run (renderValue old x w).widget es).root.objAt p = some nd ∧
          r = record (run (renderValue old x w).widget es) p nd)
        ((descendants (run (renderValue old x w).widget es).root).filter
          (pickedAt (run (renderValue old x w).widget es).root))
        (run (renderValue old x w).widget es).newnest := by
  generalize hv : run (renderValue old x w).widget es = v
  have hg : Good v := by rw [← hv]; exact good_reachable old x w es
  obtain ⟨_, _, _, hne, _⟩ := hg
  refine ⟨Rose.nodup_bfsBy _ _, pairwise_bfsBy _ _, fun p => Rose.mem_bfsBy _ _ p,
    pickedAt_iff v.root, ?_⟩
  have hf : (fun p => (pick v p).isSome) = pickedAt v.root := funext (pick_isSome v)
  rw [← hf, hne]
  refine (forall2_filterMap (pick v) (descendants v.root)).imp ?_
  intro p r ⟨_, hr⟩
  unfold pick at hr
  cases hnd : v.root.objAt p with
  | none => rw [hnd] at hr; cases hr
  | some nd =>
    rw [hnd] at hr
    simp only at hr
    split at hr
    · simp only [Option.some.injEq] at hr
      exact ⟨nd, rfl, hr.symm⟩
    · cases hr

/-- C2: in every state reached from `renderValue`, every record of `newnest`
belongs to a selected visible node below the root and carries the id of that
node's depth-1 ancestor, the name of its parent, the level name
`options.hierarchy[depth - 1]` and its own name; records of nodes below the same
depth-1 node carry the same id; and in the sample tree a click on `A` delivers
the single record of `A`. -/
theorem c2_record_fields (old : List Addr) (x : Input) (w : Widget) (es : List Event) :
    NestOk (run (renderValue old x w).widget es) ∧
      (∀ p q r s, RecOk (run (renderValue old x w).widget es) p r →
        RecOk (run (renderValue old x w).widget es) q s → p.take 1 = q.take 1 → r.id = s.id) ∧
      idAt collapsedStart.root [0] = some 2 ∧
      delivered [[], [0], [1]] [0] collapsedStart
        = some [{ id := some 2, parent := some "root", level := some "L1", value := "A" }] ∧
      expandedStart.newnest = [] ∧
      delivered allNodes [0] expandedStart
        = some [{ id := some 2, parent := some "root", level := some "L1", value := "A" }] := by
  refine ⟨(good_reachable old x w es).2.2.2.2, ?_, by decide!, by decide!, by decide!, by decide!⟩
  intro p q r s hp hq hpq
  obtain ⟨_, a, _, _, _, _, _, ha, _, _, hra, _⟩ := hp
  obtain ⟨_, b, _, _, _, _, _, hb, _, _, hsb, _⟩ := hq
  rw [hpq, hb] at ha
  cases ha
  rw [hra, hsb]

/-- C3: clicking the same node twice restores the list of visible nodes and the
list of selected nodes, whatever the state and the node. -/
theorem c3_click_twice (old1 old2 : List Addr) (p : Addr) (w : Widget) :
    descendants (click old2 p (click old1 p w)).root = descendants w.root ∧
      selectedAddrs (click old2 p (click old1 p w)).root = selectedAddrs w.root := by
  have h := click_click_view old1 old2 p w
  constructor
  · rw [descendants_view, descendants_view, h]
  · rw [selectedAddrs_view, selectedAddrs_view, h]

/-- C4: in every state reached from `renderValue` (with or without the initial
collapse pass) no node has a truthy `children` and a truthy `_children` at the
same time. -/
theorem c4_exclusive (old : List Addr) (x : Input) (w : Widget) (es : List Event)
    (q : Addr) (o : NodeObj)
    (h : (run (renderValue old x w).widget es).root.objAt q = some o) :
    ¬ (o.children.truthy = true ∧ o._children.truthy = true) :=
  run_inv Exclusive (fun o _ => exclusive_clickObj o) (fun _ h => h) old x w es
    (fun q s _ => exclusive_initObj _ q s) q o h

/-- Witness for C4: the node `A` of the sample tree after three clicks. -/
theorem c4_exclusive_witness :
    (run collapsedStart hideSelected).root.objAt [0]
        = some (nodeA Slot.null Slot.array (some false)) ∧
      ¬ ((nodeA Slot.null Slot.array (some false)).children.truthy = true ∧
        (nodeA Slot.null Slot.array (some false))._children.truthy = true) :=
  ⟨by decide!, c4_exclusive allNodes ⟨sampleData, sampleOptions (Collapsed.bool true) none⟩
    (factory 800 600) hideSelected [0] _ (by decide!)⟩

/-- C5: a node that has a non-zero id keeps it: the key function returns that id
and leaves it in place, and so does every later click or resize; and in every
state reached from `renderValue` the assigned ids lie between 1 and the counter
`i` and no two nodes share one. -/
theorem c5_ids_stable_and_unique :
    (∀ (w : Widget) (q : Addr) (k : Nat), idAt w.root q = some k → k ≠ 0 →
      (key q w).1 = some k ∧ idAt (key q w).2.root q = some k ∧
        ∀ es, idAt (run w es).root q = some k) ∧
    (∀ (p : Addr) (w : Widget), w.i ≤ (key p w).2.i) ∧
    (∀ (old : List Addr) (x : Input) (w : Widget) (es : List Event),
      (∀ q k, idAt (run (renderValue old x w).widget es).root q = some k →
        1 ≤ k ∧ k ≤ (run (renderValue old x w).widget es).i) ∧
      (∀ q r k, idAt (run (renderValue old x w).widget es).root q = some k →
        idAt (run (renderValue old x w).widget es).root r = some k → q = r)) :=
  ⟨fun w q k h hk =>
      ⟨key_fst_idAt q w k h hk, key_keeps_id q q w k h hk, fun es => run_keeps_id w es q k h hk⟩,
    key_i_le,
    fun old x w es => (good_reachable old x w es).2.1⟩

/-- Witness for C5: the node `A` of the sample tree has id 2 and keeps it. -/
theorem c5_ids_witness :
    idAt collapsedStart.root [0] = some 2 ∧ (key [0] collapsedStart).1 = some 2 ∧
      idAt (run collapsedStart hideSelected).root [0] = some 2 :=
  ⟨by decide!,
    (c5_ids_stable_and_unique.1 collapsedStart [0] 2 (by decide!) (by decide)).1,
    (c5_ids_stable_and_unique.1 collapsedStart [0] 2 (by decide!) (by decide)).2.2 hideSelected⟩

theorem collapseObj_fresh (c : Collapsed) (n : Nat) (d : Datum) (k : Data) (ks : List Data) :
    collapseObj c (fresh n d (k :: ks))
      = if staysOpen c d = true then fresh n d (k :: ks)
        else { fresh n d (k :: ks) with _children := Slot.array, children := Slot.null } := by
  unfold collapseObj
  by_cases h : staysOpen c d = true
  · simp [fresh, Slot.truthy, h]
  · simp [fresh, Slot.truthy, h]

theorem collapseObj_data (c : Collapsed) (o : NodeObj) :
    (collapseObj c o).data = o.data ∧ (collapseObj c o).depth = o.depth := by
  unfold collapseObj
  split
  · exact ⟨rfl, rfl⟩
  · split <;> exact ⟨rfl, rfl⟩

theorem initTree_visible (x : Input) (hc : x.options.collapsed = Collapsed.bool true)
    (hno : ∀ p s, Rose.getAt p x.data = some s → s.obj.prop "true" = none) (p : Addr) :
    Rose.visibleBy (fun o : NodeObj => o.children.truthy) p (initTree x) = true
      ↔ p = [] ∨ ∃ i, i < x.data.kids.length ∧ p = [i] := by
  obtain ⟨data, opts⟩ := x
  simp only at hc
  cases data with
  | node d cs =>
    cases p with
    | nil => simp [Rose.visibleBy]
    | cons i q =>
      simp only [initTree, hc, Collapsed.truthy, if_true, Rose.visibleBy, Bool.and_eq_true,
        List.getElem?_map, Rose.kids]
      cases hk : cs[i]? with
      | none =>
        simp only [Option.map_none']
        constructor
        · rintro ⟨_, h⟩; cases h
        · rintro (h | ⟨j, hj, h⟩)
          · cases h
          · have := List.getElem?_eq_none_iff.1 hk
            simp only [List.cons.injEq] at h
            omega
      | some c =>
        have hi : i < cs.length := by
          by_contra hcon
          rw [List.getElem?_eq_none_iff.2 (by omega)] at hk
          cases hk
        have hcs : cs ≠ [] := by intro e; subst e; simp at hi
        have hr : (fresh 0 d cs).children.truthy = true := by
          cases cs with
          | nil => exact absurd rfl hcs
          | cons a b => rfl
        simp only [Option.map_some', hr, true_and]
        cases q with
        | nil =>
          simp only [Rose.visibleBy, true_iff]
          exact Or.inr ⟨i, hi, rfl⟩
        | cons j q =>
          cases c with
          | node d2 cs2 =>
            have hl : staysOpen (Collapsed.bool true) d2 = false := by
              have := hno [i] (Rose.node d2 cs2) (by simp [Rose.getAt, hk])
              simp only [Rose.obj] at this
              simp [staysOpen, Collapsed.key, this]
            have hf : (collapseObj (Collapsed.bool true) (fresh 1 d2 cs2)).children.truthy
                = false := by
              cases cs2 with
              | nil => simp [collapseObj, fresh, Slot.truthy]
              | cons a b =>
                rw [collapseObj_fresh]
                simp [hl, Slot.truthy]
            rw [hierarchy_node, Rose.map_node]
            simp only [Rose.visibleBy, hf, Bool.false_and, Bool.false_eq_true, false_iff]
            rintro (h | ⟨_, _, h⟩)
            · cases h
            · simp at h

/-- C6, as stated, fails: with `collapsed = "SizeOfNode"` the node `A`, whose datum
has children and holds the named field with value 0 (not `false`), stays
expanded after `renderValue`, because line 370 tests `!d.data[...]` and 0 is
falsy. -/
theorem c6_zero_field_stays_open :
    Rose.getAt [0] zeroSizeData
        = some (Rose.node { name := "A", SizeOfNode := 0, others := [] } [leaf "A1", leaf "A2"]) ∧
      Datum.prop { name := "A", SizeOfNode := 0, others := [] } "SizeOfNode"
        = some (JsVal.num (Num.fin 0)) ∧
      Datum.prop { name := "A", SizeOfNode := 0, others := [] } "SizeOfNode"
        ≠ some (JsVal.bool false) ∧
      zeroSizeStart.root.objAt [0] = some zeroSizeA ∧
      zeroSizeA.children = Slot.array ∧ zeroSizeA._children = Slot.undefined ∧
      descendants zeroSizeStart.root = [[], [0], [1], [0, 0], [0, 1]] := by
  refine ⟨rfl, by decide!, by decide!, by decide!, rfl, rfl, by decide!⟩

/-- C6, amended: after `renderValue` with `options.collapsed` set, every datum has
its node object; the root keeps its children in `children`; every node below
the root whose datum has children holds them in `_children` with `children`
null, except exactly the nodes whose datum has the property named by
`options.collapsed` with a falsy value (`false`, 0, the empty string, `null`),
which keep them in `children`; and with `collapsed === true` and no property of
that name the visible nodes are the root and its children. -/
theorem c6_initial_collapse (old : List Addr) (x : Input) (w : Widget)
    (hc : x.options.collapsed.truthy = true) :
    (∀ p s, Rose.getAt p x.data = some s →
      ∃ o, (renderValue old x w).widget.root.objAt p = some o ∧
        o.data = s.obj ∧ o.depth = p.length ∧
        (p = [] → (s.kids ≠ [] → o.children = Slot.array) ∧ o._children = Slot.undefined) ∧
        (p ≠ [] → s.kids ≠ [] →
          ((∃ v, s.obj.prop x.options.collapsed.key = some v ∧ v.truthy = false) →
            o.children = Slot.array ∧ o._children = Slot.undefined) ∧
          ((¬ ∃ v, s.obj.prop x.options.collapsed.key = some v ∧ v.truthy = false) →
            o.children = Slot.null ∧ o._children = Slot.array))) ∧
    (x.options.collapsed = Collapsed.bool true →
      (∀ p s, Rose.getAt p x.data = some s → s.obj.prop "true" = none) →
      ∀ p, p ∈ descendants (renderValue old x w).widget.root
        ↔ p = [] ∨ ∃ i, i < x.data.kids.length ∧ p = [i]) := by
  constructor
  · intro p s hs
    have h := render_objAt old x w p
    rw [hs] at h
    cases ho : (renderValue old x w).widget.root.objAt p with
    | none => rw [ho] at h; cases h
    | some o =>
      rw [ho] at h
      simp only [Option.map_some', Option.some.injEq] at h
      have hdata : o.data = (initObj x.options.collapsed p s).data := by
        rw [← h]; rfl
      have hdepth : o.depth = (initObj x.options.collapsed p s).depth := by
        rw [← h]; rfl
      have hch : o.children = (initObj x.options.collapsed p s).children := by
        rw [← h]; rfl
      have hhc : o._children = (initObj x.options.collapsed p s)._children := by
        rw [← h]; rfl
      refine ⟨o, rfl, ?_, ?_, ?_, ?_⟩
      · rw [hdata]; unfold initObj
        split
        · rfl
        · try rw [if_pos hc]
          exact (collapseObj_data _ _).1
      · rw [hdepth]; unfold initObj
        split
        · rename_i hp; rw [hp]; rfl
        · try rw [if_pos hc]
          exact (collapseObj_data _ _).2
      · intro hp
        rw [hch, hhc]
        simp only [initObj, hp, if_true]
        refine ⟨fun hk => ?_, rfl⟩
        cases hks : s.kids with
        | nil => exact absurd hks hk
        | cons a b => rfl
      · intro hp hk
        rw [hch, hhc]
        simp only [initObj, hp, if_false, hc, if_true]
        cases hks : s.kids with
        | nil => exact absurd hks hk
        | cons a b =>
          rw [collapseObj_fresh]
          constructor
          · intro hl; rw [if_pos ((staysOpen_iff _ _).2 hl)]; exact ⟨rfl, rfl⟩
          · intro hl
            rw [if_neg (fun e => hl ((staysOpen_iff _ _).1 e))]
            exact ⟨rfl, rfl⟩
  · intro hb hno p
    rw [descendants_congr _ _ (renderValue_strip old x w)]
    rw [descendants, Rose.mem_bfsBy]
    exact initTree_visible x hb hno p

/-- Witness for C6: in the sample tree with `collapsed = true` the node `A`
starts collapsed, and with `collapsed = "SizeOfNode"` and size 0 at `A` it
starts expanded. -/
theorem c6_initial_collapse_witness :
    collapsedStart.root.objAt [0] = some (nodeA Slot.null Slot.array none) ∧
      descendants collapsedStart.root = [[], [0], [1]] ∧
      (∃ o, collapsedStart.root.objAt [0] = some o ∧
        o.children = Slot.null ∧ o._children = Slot.array) ∧
      (∃ o, zeroSizeStart.root.objAt [0] = some o ∧
        o.children = Slot.array ∧ o._children = Slot.undefined) := by
  refine ⟨by decide!, by decide!, ?_, ?_⟩
  · obtain ⟨o, h1, _, _, _, h5⟩ :=
      (c6_initial_collapse allNodes ⟨sampleData, sampleOptions (Collapsed.bool true) none⟩
        (factory 800 600) rfl).1 [0]
        (Rose.node { name := "A", SizeOfNode := 1, others := [] } [leaf "A1", leaf "A2"]) rfl
    refine ⟨o, h1, (h5 (by decide) (by simp [Rose.kids])).2 ?_⟩
    rintro ⟨v, hv, hf⟩
    simp [Datum.prop, Collapsed.key, sampleOptions, Rose.obj] at hv
  · obtain ⟨o, h1, _, _, _, h5⟩ :=
      (c6_initial_collapse allNodes
        ⟨zeroSizeData, sampleOptions (Collapsed.field "SizeOfNode") none⟩
        (factory 800 600) rfl).1 [0]
        (Rose.node { name := "A", SizeOfNode := 0, others := [] } [leaf "A1", leaf "A2"]) rfl
    exact ⟨o, h1, (h5 (by decide) (by simp [Rose.kids])).1
      ⟨JsVal.num (Num.fin 0), by decide!, by decide!⟩⟩

/-- C7: without a supplied `linkLength`, `renderValue` sets `options.linkLength`
to the larger of 175 and `2 * (widthMargin / options.hierarchy.length)` with
`widthMargin = width - margin.left - margin.right`, and every later `resize`
sets it by the same formula from the new width; for a non-empty `hierarchy` this
is the ordinary maximum of two finite numbers; 4 levels give 175 at width 300
and 500 at width 1000. -/
theorem c7_responsive_length (old : List Addr) (x : Input) (w : Widget)
    (h : x.options.linkLength = none) :
    (renderValue old x w).widget.options.linkLength
        = some (Num.maxFin 175 (Num.twice (Num.quot
            (w.width - x.options.margin.left - x.options.margin.right)
            x.options.hierarchy.length))) ∧
      (∀ (es : List Event) (old2 : List Addr) (width height : ℚ),
        (resize old2 width height (run (renderValue old x w).widget es)).options.linkLength
          = some (Num.maxFin 175 (Num.twice (Num.quot
              (width - x.options.margin.left - x.options.margin.right)
              x.options.hierarchy.length)))) ∧
      (∀ (a : ℚ) (n : Nat), 0 < n →
        responsiveLength a n = Num.fin (max 175 (2 * (a / n)))) ∧
      responsiveLength 300 4 = Num.fin 175 ∧ responsiveLength 1000 4 = Num.fin 500 := by
  have ho := render_options old x w
  have hd : defaultLength w.width x.options.toOptions
      = { x.options.toOptions with
          linkResponsive := true
          linkLength := some (responsiveLength
            (w.width - x.options.margin.left - x.options.margin.right)
            x.options.hierarchy.length) } := by
    unfold defaultLength
    simp [HostOptions.toOptions, h, lengthTruthy]
  rw [hd] at ho
  have hfin : ∀ (a : ℚ) (n : Nat), 0 < n →
      responsiveLength a n = Num.fin (max 175 (2 * (a / n))) := by
    intro a n hn
    rw [responsiveLength_eq]
    simp [Num.quot, Nat.pos_iff_ne_zero.1 hn, Num.twice, Num.maxFin]
  refine ⟨?_, ?_, hfin, ?_, ?_⟩
  · rw [ho, responsiveLength_eq]
  · intro es old2 width height
    obtain ⟨h1, h2, h3⟩ := run_responsive x.options.margin x.options.hierarchy
      (renderValue old x w).widget es (by rw [ho]) (by rw [ho]; rfl) (by rw [ho]; rfl)
    have hs := step_options (run (renderValue old x w).widget es) (Event.resize old2 width height)
    simp only [step] at hs
    rw [hs, h1, h2, h3, ← responsiveLength_eq]
    rfl
  · rw [hfin 300 4 (by decide)]; norm_num
  · rw [hfin 1000 4 (by decide)]; norm_num

/-- Witness for C7: the sample tree rendered at width 800 without `linkLength`. -/
theorem c7_responsive_length_witness :
    (sampleOptions (Collapsed.bool false) none).linkLength = none ∧
      expandedStart.options.linkLength
        = some (Num.maxFin 175 (Num.twice (Num.quot (800 - 0 - 0) 2))) :=
  ⟨rfl, (c7_responsive_length allNodes ⟨sampleData, sampleOptions (Collapsed.bool false) none⟩
    (factory 800 600) rfl).1⟩

/-- C8, as stated, fails for the numeric value 0: `!options.linkLength` treats
it as not supplied, and `renderValue` replaces it by the responsive length. -/
theorem c8_zero_length_replaced :
    (renderValue allNodes ⟨sampleData, sampleOptions (Collapsed.bool false) (some (Num.fin 0))⟩
        (factory 800 600)).widget.options.linkLength = some (Num.fin 800) ∧
      (renderValue allNodes ⟨sampleData, sampleOptions (Collapsed.bool false) (some (Num.fin 0))⟩
        (factory 800 600)).widget.options.linkLength ≠ some (Num.fin 0) := by
  have h : (renderValue allNodes
        ⟨sampleData, sampleOptions (Collapsed.bool false) (some (Num.fin 0))⟩
        (factory 800 600)).widget.options.linkLength = some (Num.fin 800) := by
    rw [render_options]
    simp only [defaultLength, HostOptions.toOptions, sampleOptions, lengthTruthy, Num.truthy,
      factory, responsiveLength, Num.quot, Num.twice, Num.ltFin]
    norm_num
  refine ⟨h, ?_⟩
  rw [h]
  intro e
  simp only [Option.some.injEq, Num.fin.injEq] at e
  norm_num at e

/-- C8, amended: a supplied `linkLength` that is truthy (a number other than 0
and NaN) is still the value of `options.linkLength` after `renderValue` and
after any sequence of resizes and clicks, and `linkResponsive` stays unset. -/
theorem c8_supplied_length_kept (old : List Addr) (x : Input) (w : Widget) (l : Num)
    (es : List Event) (h : x.options.linkLength = some l) (ht : l.truthy = true) :
    (run (renderValue old x w).widget es).options.linkLength = some l ∧
      (run (renderValue old x w).widget es).options.linkResponsive = false := by
  have ho := render_options old x w
  have hd : defaultLength w.width x.options.toOptions = x.options.toOptions := by
    unfold defaultLength
    simp [HostOptions.toOptions, h, lengthTruthy, ht]
  rw [hd] at ho
  obtain ⟨h1, h2⟩ := run_fixed l (renderValue old x w).widget es (by rw [ho]; rfl)
    (by rw [ho]; exact h)
  exact ⟨h2, h1⟩

/-- Witness for C8: a supplied length of 200 survives a resize to width 2000. -/
theorem c8_supplied_length_witness :
    (sampleOptions (Collapsed.bool false) (some (Num.fin 200))).linkLength = some (Num.fin 200) ∧
      (Num.fin 200).truthy = true ∧
      (run (renderValue allNodes
          ⟨sampleData, sampleOptions (Collapsed.bool false) (some (Num.fin 200))⟩
          (factory 800 600)).widget [Event.resize allNodes 2000 600]).options.linkLength
        = some (Num.fin 200) :=
  ⟨rfl, by simp [Num.truthy],
    (c8_supplied_length_kept allNodes
      ⟨sampleData, sampleOptions (Collapsed.bool false) (some (Num.fin 200))⟩ (factory 800 600)
      (Num.fin 200) [Event.resize allNodes 2000 600] rfl (by simp [Num.truthy])).1⟩

/-- C9: `separationFun` returns `(sqrt(a.size) + sqrt(b.size)) / 25` for two
nodes with the same parent and 1 for nodes with different parents; siblings of
sizes 16 and 9 get 0.28. -/
theorem c9_separation (sqrt : ℚ → ℚ) (a b : Addr × NodeObj) :
    (parentAddr a.1 = parentAddr b.1 →
      separationFun sqrt a b
        = (sqrt a.2.data.SizeOfNode + sqrt b.2.data.SizeOfNode) / 25) ∧
    (parentAddr a.1 ≠ parentAddr b.1 → separationFun sqrt a b = 1) ∧
    (parentAddr a.1 = parentAddr b.1 → a.2.data.SizeOfNode = 16 → b.2.data.SizeOfNode = 9 →
      sqrt 16 = 4 → sqrt 9 = 3 → separationFun sqrt a b = 28 / 100) := by
  refine ⟨fun h => by simp [separationFun, h], fun h => by simp [separationFun, h], ?_⟩
  intro h ha hb h16 h9
  simp only [separationFun, h, if_true, ha, hb, h16, h9]
  norm_num

/-- Witness for C9: the sample sizes 16 and 9, as siblings and as non-siblings. -/
theorem c9_separation_witness :
    separationFun sampleSqrt ([0], sized 16) ([1], sized 9) = 28 / 100 ∧
      separationFun sampleSqrt ([0], sized 16) ([1, 0], sized 9) = 1 :=
  ⟨(c9_separation sampleSqrt ([0], sized 16) ([1], sized 9)).2.2 (by decide) rfl rfl
      (by norm_num [sampleSqrt]) (by norm_num [sampleSqrt]),
    (c9_separation sampleSqrt ([0], sized 16) ([1, 0], sized 9)).2.1 (by decide)⟩

/-- C10, as stated, fails when `options.collapsed` is unset: right after
`renderValue` the node `A` of the sample tree is expanded and not selected. -/
theorem c10_expanded_unselected :
    expandedStart.root.objAt [0] = some (nodeA Slot.array Slot.undefined none) ∧
      (nodeA Slot.array Slot.undefined none).children.truthy = true ∧
      (nodeA Slot.array Slot.undefined none)._isSelected ≠ some true ∧
      ¬ (∀ q o, expandedStart.root.objAt q = some o → Agree o) := by
  have h : expandedStart.root.objAt [0] = some (nodeA Slot.array Slot.undefined none) := by
    decide!
  refine ⟨h, rfl, by decide, ?_⟩
  intro hall
  have := (hall [0] _ h).1 rfl
  cases this

/-- C10, amended: when `options.collapsed` is set and no node below the root that
has children carries the named property with a falsy value, then in every state
reached from `renderValue` by clicks and resizes no node is expanded while
unselected and no node is selected while it holds its children in `_children`. -/
theorem c10_expansion_agrees_with_selection (old : List Addr) (x : Input) (w : Widget)
    (es : List Event) (hc : x.options.collapsed.truthy = true)
    (hno : ∀ p s, p ≠ [] → Rose.getAt p x.data = some s → s.kids ≠ [] →
      ∀ v, s.obj.prop x.options.collapsed.key = some v → v.truthy = true)
    (q : Addr) (o : NodeObj)
    (h : (run (renderValue old x w).widget es).root.objAt q = some o) :
    (o.children.truthy = true → o._isSelected = some true) ∧
      (o._isSelected = some true → o._children.truthy = false) := by
  refine run_inv Agree agree_clickObj (fun _ h => h) old x w es ?_ q o h
  intro p s hs
  unfold initObj
  by_cases hp : p = []
  · simp [hp, Agree, fresh, Slot.truthy]
  · simp only [hp, if_false, hc, if_true]
    cases hks : s.kids with
    | nil => simp [collapseObj, Agree, fresh, Slot.truthy]
    | cons a b =>
      have hst : ¬ staysOpen x.options.collapsed s.obj = true := by
        intro e
        obtain ⟨v, hv, hf⟩ := (staysOpen_iff _ _).1 e
        have := hno p s hp hs (by rw [hks]; simp) v hv
        rw [hf] at this
        cases this
      rw [collapseObj_fresh, if_neg hst]
      simp [Agree, Slot.truthy, fresh]

theorem sampleData_others (p : Addr) (s : Data) (h : Rose.getAt p sampleData = some s) :
    s.obj.others = [] := by
  rcases p with _ | ⟨i, _ | ⟨j, _ | ⟨k, q⟩⟩⟩
  · cases h; rfl
  · rcases i with _ | _ | i <;> simp [sampleData, leaf, Rose.getAt] at h <;> subst h <;> rfl
  · rcases i with _ | _ | i <;> rcases j with _ | _ | j <;>
      simp [sampleData, leaf, Rose.getAt] at h <;> subst h <;> rfl
  · rcases i with _ | _ | i <;> rcases j with _ | _ | j <;>
      simp [sampleData, leaf, Rose.getAt] at h

/-- Witness for C10: the node `A` of the sample tree, collapsed at the start, is
expanded and selected after one click, and collapsed and unselected after the
three clicks of `hideSelected`. -/
theorem c10_agreement_witness :
    (run collapsedStart expandA).root.objAt [0]
        = some (nodeA Slot.array Slot.null (some true)) ∧
      (nodeA Slot.array Slot.null (some true)).children.truthy = true ∧
      ((nodeA Slot.array Slot.null (some true)).children.truthy = true →
        (nodeA Slot.array Slot.null (some true))._isSelected = some true) ∧
      ((nodeA Slot.array Slot.null (some true))._isSelected = some true →
        (nodeA Slot.array Slot.null (some true))._children.truthy = false) :=
  ⟨by decide!, rfl,
    c10_expansion_agrees_with_selection allNodes
      ⟨sampleData, sampleOptions (Collapsed.bool true) none⟩ (factory 800 600) expandA rfl
      (fun p s _ hs _ v hv => by
        have ho := sampleData_others p s hs
        simp [Datum.prop, Collapsed.key, sampleOptions, ho] at hv)
      [0] _ (by decide!)⟩

end CollapsibleTree
